import Mathlib

/-!
Shallow embedding of the region quadtree implemented in `src/quadtree.rs`
(crate `quadtree-rs`), together with proofs about its specification.

Modelling conventions:
* `isize` becomes `Int`.  Rust's `/` on `isize` truncates toward zero, which is
  `Int.tdiv` in Lean (not `/`, which is Euclidean division).
* A Rust function that can `panic!` / `assert!` / `unwrap` is modelled as
  returning `Option`, with `none` for the panic.
* The recursive mutating operations `insert_value` and `insert_value_range`
  recurse on a child produced by `split`, which is not structurally smaller,
  so the embedding adds an explicit `fuel : Nat` argument; `none` also results
  when fuel runs out.  All claims about these operations are stated for runs
  that return `some`, and concrete witnesses use enough fuel.
* `QuadtreeIter` is a lazy cursor; `iterList` below produces the list the
  iterator yields, with the cursor advancement rule transcribed verbatim and
  the number of cells of the governed rectangle as fuel (the iterator emits
  exactly one element per cell before finishing, proved below).
-/

/-- `Coordinate(isize, isize)` from `src/quadtree.rs` (line 275). -/
structure Coordinate where
  x : Int
  y : Int
deriving DecidableEq, Repr

/-- `type Rect = [Coordinate; 2]` (line 282): `.1` is `bounds[0]` (upper-left),
`.2` is `bounds[1]` (lower-right). -/
abbrev Rect := Coordinate × Coordinate

/-- `enum Node<T> { Leaf(LeafNode<T>), Quad(QuadNode<T>) }` (lines 84-88).
`LeafNode`/`QuadNode` fields (lines 262-272) are inlined; `QuadNode.nodes`
is a `Vec<Node<T>>`, modelled as `List (Node T)`. -/
inductive Node (T : Type) where
  | leaf (bounds : Rect) (value : T)
  | quad (bounds : Rect) (nodes : List (Node T))
deriving Repr

/-- `Node::get_bounds` (lines 112-117). -/
def Node.get_bounds {T : Type} : Node T → Rect
  | .leaf bounds _ => bounds
  | .quad bounds _ => bounds

/-- `Node::is_leaf` (lines 90-92). -/
def Node.is_leaf {T : Type} : Node T → Bool
  | .leaf _ _ => true
  | .quad _ _ => false

/-- `Node::is_quad` (lines 94-96). -/
def Node.is_quad {T : Type} : Node T → Bool
  | .leaf _ _ => false
  | .quad _ _ => true

/-- `Node::contains` (lines 119-125): bounds-inclusive membership test. -/
def Node.contains {T : Type} (n : Node T) (point : Coordinate) : Bool :=
  decide (n.get_bounds.1.x ≤ point.x) && decide (point.x ≤ n.get_bounds.2.x) &&
    decide (n.get_bounds.1.y ≤ point.y) && decide (point.y ≤ n.get_bounds.2.y)

mutual
/-- `Node::read_value` (lines 127-135): a leaf answers with its value for any
queried point; a quad recurses into the first child whose bounds contain the
point (`nodes.into_iter().find(..).and_then(..)`). -/
def Node.read_value {T : Type} : Node T → Coordinate → Option T
  | .leaf _ value, _ => some value
  | .quad _ nodes, point => readList nodes point
/-- The `find(|n| n.contains(point)).and_then(|node| node.read_value(point))`
part of `Node::read_value` (lines 130-133), unfolded over the child list. -/
def readList {T : Type} : List (Node T) → Coordinate → Option T
  | [], _ => none
  | n :: rest, point =>
    if n.contains point then n.read_value point else readList rest point
end

/-- `Node::get_value` (lines 137-142); the `panic!` on a quad is `none`. -/
def Node.get_value {T : Type} : Node T → Option T
  | .leaf _ value => some value
  | .quad _ _ => none

/-- `split_rect` (lines 284-317): partition `bounds` at the midlines, emitting
each of the four candidate quadrants only when its corner test passes. -/
def split_rect (bounds : Rect) (h_mid v_mid : Int) : List Rect :=
  (if bounds.1.x ≤ h_mid ∧ bounds.1.y ≤ v_mid then
    [(⟨bounds.1.x, bounds.1.y⟩, ⟨h_mid, v_mid⟩)] else []) ++
  (if bounds.2.x > h_mid ∧ bounds.1.y ≤ v_mid then
    [(⟨h_mid + 1, bounds.1.y⟩, ⟨bounds.2.x, v_mid⟩)] else []) ++
  (if bounds.1.x ≤ h_mid ∧ bounds.2.y > v_mid then
    [(⟨bounds.1.x, v_mid + 1⟩, ⟨h_mid, bounds.2.y⟩)] else []) ++
  (if bounds.2.x > h_mid ∧ bounds.2.y > v_mid then
    [(⟨h_mid + 1, v_mid + 1⟩, ⟨bounds.2.x, bounds.2.y⟩)] else [])

/-- `rect_intersection` (lines 319-338). -/
def rect_intersection (left right : Rect) : Option Rect :=
  if max left.1.x right.1.x > min left.2.x right.2.x then none
  else if max left.1.y right.1.y > min left.2.y right.2.y then none
  else some (⟨max left.1.x right.1.x, max left.1.y right.1.y⟩,
             ⟨min left.2.x right.2.x, min left.2.y right.2.y⟩)

/-- `Node::split` (lines 169-197): no-op on a quad; on a leaf the two
`assert!`s demand positive span on both axes (`none` on failure), the
midlines are computed with Rust's truncating `/` (`Int.tdiv`), and the leaf
is replaced by a quad whose children are leaves over `split_rect`'s pieces,
all inheriting the parent's value. -/
def Node.split {T : Type} : Node T → Option (Node T)
  | .quad bounds nodes => some (.quad bounds nodes)
  | .leaf bounds value =>
    if bounds.2.x - bounds.1.x > 0 ∧ bounds.2.y - bounds.1.y > 0 then
      some (.quad bounds
        ((split_rect bounds (Int.tdiv (bounds.2.x + bounds.1.x) 2)
            (Int.tdiv (bounds.2.y + bounds.1.y) 2)).map
          (fun b => Node.leaf b value)))
    else
      none

/-- `Node::consolidate` (lines 199-208): no-op on a leaf; a quad becomes a
leaf carrying `nodes[0].get_value()` (`none` models the `panic!` when the
first child is absent or not a leaf — the callers check first). -/
def Node.consolidate {T : Type} : Node T → Option (Node T)
  | .leaf bounds value => some (.leaf bounds value)
  | .quad bounds nodes =>
    match nodes with
    | .leaf _ value :: _ => some (.leaf bounds value)
    | _ => none

/-- The per-child test `n.is_leaf() && n.get_value() == &value` used by the
consolidation checks of `insert_value` (line 231) and `insert_value_range`
(line 254). -/
def leafValueIs {T : Type} [DecidableEq T] (value : T) (n : Node T) : Bool :=
  n.is_leaf && decide (n.get_value = some value)

/-- The `get_nodes_mut().into_iter().find(..).map(..).unwrap()` step of
`insert_value` (lines 218-226): apply `f` to the first child containing
`point` and report whether that child is now a leaf; `none` models the
`unwrap` panic when no child contains the point (or a panic inside `f`). -/
def updateFirst {T : Type} (f : Node T → Option (Node T)) (point : Coordinate) :
    List (Node T) → Option (List (Node T) × Bool)
  | [] => none
  | n :: rest =>
    if n.contains point then
      match f n with
      | none => none
      | some n' => some (n' :: rest, n'.is_leaf)
    else
      match updateFirst f point rest with
      | none => none
      | some (rest', b) => some (n :: rest', b)

/-- `Node::insert_value` (lines 210-235): overwrite a single-point leaf in
place; otherwise split, recurse into the child containing the point, and
consolidate when that child is now a leaf and all children are leaves holding
the inserted value. -/
def insert_value {T : Type} [DecidableEq T] :
    Nat → Node T → T → Coordinate → Option (Node T)
  | 0, _, _, _ => none
  | Nat.succ fuel, n, value, point =>
    if point = n.get_bounds.1 ∧ point = n.get_bounds.2 then
      match n with
      | .leaf bounds _ => some (.leaf bounds value)
      | .quad _ _ => none
    else
      match n.split with
      | none => none
      | some (.leaf _ _) => none
      | some (.quad bounds nodes) =>
        match updateFirst (fun c => insert_value fuel c value point) point nodes with
        | none => none
        | some (nodes', childLeaf) =>
          if childLeaf ∧ nodes'.all (leafValueIs value) then
            (Node.quad bounds nodes').consolidate
          else
            some (.quad bounds nodes')

/-- The `for node in self.get_nodes_mut() { if let Some(intersection) = .. }`
loop of `insert_value_range` (lines 246-250): each child whose bounds
intersect the target is replaced by `f child intersection`. -/
def rangeChildren {T : Type} (f : Node T → Rect → Option (Node T)) (bounds : Rect) :
    List (Node T) → Option (List (Node T))
  | [] => some []
  | c :: rest =>
    match (match rect_intersection c.get_bounds bounds with
           | some intersection => f c intersection
           | none => some c) with
    | none => none
    | some c' =>
      match rangeChildren f bounds rest with
      | none => none
      | some rest' => some (c' :: rest')

/-- `Node::insert_value_range` (lines 237-259): replace the node wholesale on
an exact bounds match; otherwise split, recurse into every child whose bounds
intersect the target (with the intersection as new target), and consolidate
when all children are leaves holding the inserted value.  The returned
`self.is_leaf()` flag is discarded by every caller, so the embedding returns
the updated node only. -/
def insert_value_range {T : Type} [DecidableEq T] :
    Nat → Node T → T → Rect → Option (Node T)
  | 0, _, _, _ => none
  | Nat.succ fuel, n, value, bounds =>
    if n.get_bounds = bounds then
      some (.leaf bounds value)
    else
      match n.split with
      | none => none
      | some (.leaf _ _) => none
      | some (.quad nbounds nodes) =>
        match rangeChildren (fun c i => insert_value_range fuel c value i) bounds nodes with
        | none => none
        | some nodes' =>
          if nodes'.all (leafValueIs value) then
            (Node.quad nbounds nodes').consolidate
          else
            some (.quad nbounds nodes')

/-- `struct Quadtree<T> { inner: Node<T> }` (lines 1-3). -/
structure Quadtree (T : Type) where
  inner : Node T
deriving Repr

/-- `Quadtree::new` (lines 24-35).  Rust obtains the starting value from
`T: Default`; the embedding takes that default value as an explicit
argument. -/
def Quadtree.new {T : Type} (default : T)
    (upper_left_bound lower_right_bound : Coordinate) : Quadtree T :=
  ⟨.leaf (upper_left_bound, lower_right_bound) default⟩

/-- `Quadtree::get` (lines 5-10). -/
def Quadtree.get {T : Type} (q : Quadtree T) (point : Coordinate) : Option T :=
  q.inner.read_value point

/-- `Quadtree::insert` (lines 40-45): runs `insert_value` on the root and
discards its flag. -/
def Quadtree.insert {T : Type} [DecidableEq T] (fuel : Nat) (q : Quadtree T)
    (value : T) (point : Coordinate) : Option (Quadtree T) :=
  (insert_value fuel q.inner value point).map Quadtree.mk

/-- `Quadtree::insert_rect` (lines 47-49). -/
def Quadtree.insert_rect {T : Type} [DecidableEq T] (fuel : Nat) (q : Quadtree T)
    (value : T) (rect : Rect) : Option (Quadtree T) :=
  (insert_value_range fuel q.inner value rect).map Quadtree.mk

/-- `QuadtreeIter::next` (lines 64-82), unfolded into the list of yielded
values starting from cursor position `counter`: yield `get counter`; stop
after the far corner, wrap to the row start at the end of a row, otherwise
step right.  A `none` lookup stops the stream (the consumer sees `None`). -/
def iterFrom {T : Type} : Nat → Quadtree T → Coordinate → List T
  | 0, _, _ => []
  | Nat.succ fuel, q, counter =>
    match q.get counter with
    | none => []
    | some value =>
      if counter = q.inner.get_bounds.2 then [value]
      else if counter.x = q.inner.get_bounds.2.x then
        value :: iterFrom fuel q ⟨q.inner.get_bounds.1.x, counter.y + 1⟩
      else
        value :: iterFrom fuel q ⟨counter.x + 1, counter.y⟩

/-- Number of grid cells of a rectangle (used as iteration fuel). -/
def cellCount (bounds : Rect) : Nat :=
  ((bounds.2.x - bounds.1.x + 1) * (bounds.2.y - bounds.1.y + 1)).toNat

/-- The full list collected from `Quadtree::iter` (lines 12-18): the cursor
starts at `bounds[0]` and the stream ends by the time every cell of the
governed rectangle has been visited. -/
def Quadtree.iterList {T : Type} (q : Quadtree T) : List T :=
  iterFrom (cellCount q.inner.get_bounds) q q.inner.get_bounds.1

/-! ### Specification-side predicates -/

/-- A point lies in a rectangle (both bounds inclusive); the `Prop` twin of
`Node::contains`. -/
def inRect (bounds : Rect) (p : Coordinate) : Prop :=
  bounds.1.x ≤ p.x ∧ p.x ≤ bounds.2.x ∧ bounds.1.y ≤ p.y ∧ p.y ≤ bounds.2.y

instance (bounds : Rect) (p : Coordinate) : Decidable (inRect bounds p) := by
  unfold inRect; infer_instance

/-- The data-model invariant on rectangles: `min.x <= max.x` and
`min.y <= max.y` (spec section 3). -/
def properRect (bounds : Rect) : Prop :=
  bounds.1.x ≤ bounds.2.x ∧ bounds.1.y ≤ bounds.2.y

instance (bounds : Rect) : Decidable (properRect bounds) := by
  unfold properRect; infer_instance

/-- Structural well-formedness of a tree: rectangles satisfy the data-model
invariant, children lie within their parent's bounds, and the children of a
branch cover the branch's bounds.  Freshly constructed trees are leaves and
trivially well-formed. -/
inductive WF {T : Type} : Node T → Prop
  | leaf (bounds : Rect) (value : T) : properRect bounds → WF (.leaf bounds value)
  | quad (bounds : Rect) (nodes : List (Node T)) :
      properRect bounds →
      (∀ n ∈ nodes, WF n) →
      (∀ n ∈ nodes, ∀ p, inRect n.get_bounds p → inRect bounds p) →
      (∀ p, inRect bounds p → ∃ n ∈ nodes, inRect n.get_bounds p) →
      WF (.quad bounds nodes)

/-- A child list consisting entirely of leaves that hold one common value
(the situation claim C3 says can never survive a mutating operation). -/
def uniformLeaves {T : Type} (nodes : List (Node T)) : Prop :=
  nodes ≠ [] ∧ ∃ v, ∀ n ∈ nodes, n.is_leaf = true ∧ n.get_value = some v

/-- The "maximally consolidated" tree invariant of the spec: no branch
anywhere in the tree has a child list of leaves all holding equal values. -/
inductive Consolidated {T : Type} : Node T → Prop
  | leaf (bounds : Rect) (value : T) : Consolidated (.leaf bounds value)
  | quad (bounds : Rect) (nodes : List (Node T)) :
      (∀ n ∈ nodes, Consolidated n) →
      ¬ uniformLeaves nodes →
      Consolidated (.quad bounds nodes)

/-- Integer range `[lo, lo + len)` as a list, used to spell out row-major
order. -/
def intRange (lo : Int) : Nat → List Int
  | 0 => []
  | Nat.succ len => lo :: intRange (lo + 1) len

/-- Modelled from the spec (section 4.6): the row-major enumeration of every
coordinate of a rectangle — for each `y` from `min.y` to `max.y`, for each
`x` from `min.x` to `max.x`.  This is the specification-side description that
the iterator is proved to follow. -/
def specRowMajorCoords (bounds : Rect) : List Coordinate :=
  (intRange bounds.1.y (bounds.2.y - bounds.1.y + 1).toNat).flatMap fun j =>
    (intRange bounds.1.x (bounds.2.x - bounds.1.x + 1).toNat).map fun i => ⟨i, j⟩

/-- Tail of the row-major enumeration starting at cursor `c`: the rest of row
`c.y` from `c.x`, followed by every full row below it (spec-side helper for
relating the iterator's cursor to row-major order). -/
def coordsFrom (bounds : Rect) (c : Coordinate) : List Coordinate :=
  ((intRange c.x (bounds.2.x - c.x + 1).toNat).map fun i => (⟨i, c.y⟩ : Coordinate)) ++
  ((intRange (c.y + 1) (bounds.2.y - c.y).toNat).flatMap fun j =>
    (intRange bounds.1.x (bounds.2.x - bounds.1.x + 1).toNat).map
      fun i => (⟨i, j⟩ : Coordinate))

/-- One mutating call of the public interface (used to state frame/invariant
properties over arbitrary call sequences). -/
inductive QuadOp (T : Type) where
  | point (value : T) (point : Coordinate)
  | range (value : T) (rect : Rect)

/-- Run one mutating call. -/
def applyOp {T : Type} [DecidableEq T] (fuel : Nat) (q : Quadtree T) :
    QuadOp T → Option (Quadtree T)
  | .point value point => q.insert fuel value point
  | .range value rect => q.insert_rect fuel value rect

/-- Run a sequence of mutating calls, failing if any call fails. -/
def applyOps {T : Type} [DecidableEq T] (fuel : Nat) (q : Quadtree T) :
    List (QuadOp T) → Option (Quadtree T)
  | [] => some q
  | op :: ops =>
    match applyOp fuel q op with
    | none => none
    | some q' => applyOps fuel q' ops

/-- Concrete tree: result of `insert_rect(true, [(1,3),(4,4)])` on
`Quadtree::new((1,1),(4,4))` over `bool` (the spec's iteration scenario). -/
def exQ1 : Quadtree Bool :=
  ⟨.quad (⟨1,1⟩, ⟨4,4⟩)
    [.leaf (⟨1,1⟩, ⟨2,2⟩) false, .leaf (⟨3,1⟩, ⟨4,2⟩) false,
     .leaf (⟨1,3⟩, ⟨2,4⟩) true, .leaf (⟨3,3⟩, ⟨4,4⟩) true]⟩

/-- Concrete tree: result of the subsequent `insert(false, (4,4))`. -/
def exQ2 : Quadtree Bool :=
  ⟨.quad (⟨1,1⟩, ⟨4,4⟩)
    [.leaf (⟨1,1⟩, ⟨2,2⟩) false, .leaf (⟨3,1⟩, ⟨4,2⟩) false,
     .leaf (⟨1,3⟩, ⟨2,4⟩) true,
     .quad (⟨3,3⟩, ⟨4,4⟩)
       [.leaf (⟨3,3⟩, ⟨3,3⟩) true, .leaf (⟨4,3⟩, ⟨4,3⟩) true,
        .leaf (⟨3,4⟩, ⟨3,4⟩) true, .leaf (⟨4,4⟩, ⟨4,4⟩) false]]⟩

/-! ### Basic lemmas -/

theorem tdiv_two_eq (s : Int) : Int.tdiv s 2 = if 0 ≤ s then s / 2 else -((-s) / 2) := by
  split
  case isTrue h => exact Int.tdiv_eq_ediv h (by decide)
  case isFalse h =>
    have h1 : Int.tdiv s 2 = Int.tdiv (-(-s)) 2 := by rw [Int.neg_neg]
    rw [h1, Int.neg_tdiv, Int.tdiv_eq_ediv (by omega) (by decide)]

theorem tdiv_mid_le {a b : Int} (h : a ≤ b) :
    a ≤ Int.tdiv (b + a) 2 ∧ Int.tdiv (b + a) 2 ≤ b := by
  rw [tdiv_two_eq]; split <;> omega

theorem contains_iff {T : Type} (n : Node T) (p : Coordinate) :
    n.contains p = true ↔ inRect n.get_bounds p := by
  simp [Node.contains, inRect, Bool.and_eq_true, decide_eq_true_eq, and_assoc]

theorem rect_intersection_some {l r i : Rect} (h : rect_intersection l r = some i)
    (p : Coordinate) : inRect i p ↔ inRect l p ∧ inRect r p := by
  unfold rect_intersection at h
  by_cases h1 : max l.1.x r.1.x > min l.2.x r.2.x
  · simp [h1] at h
  · by_cases h2 : max l.1.y r.1.y > min l.2.y r.2.y
    · simp [h1, h2] at h
    · simp [h1, h2] at h
      rw [← h]
      simp only [inRect]
      omega

theorem rect_intersection_none {l r : Rect} (h : rect_intersection l r = none)
    (p : Coordinate) : ¬(inRect l p ∧ inRect r p) := by
  unfold rect_intersection at h
  by_cases h1 : max l.1.x r.1.x > min l.2.x r.2.x
  · simp only [inRect]; omega
  · by_cases h2 : max l.1.y r.1.y > min l.2.y r.2.y
    · simp only [inRect]; omega
    · simp [h1, h2] at h

theorem inRect_def (a b c d : Int) (p : Coordinate) :
    inRect (⟨a, b⟩, ⟨c, d⟩) p ↔ a ≤ p.x ∧ p.x ≤ c ∧ b ≤ p.y ∧ p.y ≤ d := Iff.rfl

theorem properRect_def (a b c d : Int) :
    properRect (⟨a, b⟩, ⟨c, d⟩) ↔ a ≤ c ∧ b ≤ d := Iff.rfl

theorem split_rect_cover {b : Rect} {h_mid v_mid : Int} {p : Coordinate}
    (hp : inRect b p) : ∃ r ∈ split_rect b h_mid v_mid, inRect r p := by
  obtain ⟨hp1, hp2, hp3, hp4⟩ := hp
  by_cases hx : p.x ≤ h_mid <;> by_cases hy : p.y ≤ v_mid
  · refine ⟨(⟨b.1.x, b.1.y⟩, ⟨h_mid, v_mid⟩), ?_, ?_⟩
    · simp only [split_rect, List.mem_append]
      exact Or.inl (Or.inl (Or.inl (by
        rw [if_pos ⟨by omega, by omega⟩]; exact List.mem_singleton.mpr rfl)))
    · rw [inRect_def]; omega
  · refine ⟨(⟨b.1.x, v_mid + 1⟩, ⟨h_mid, b.2.y⟩), ?_, ?_⟩
    · simp only [split_rect, List.mem_append]
      exact Or.inl (Or.inr (by
        rw [if_pos ⟨by omega, by omega⟩]; exact List.mem_singleton.mpr rfl))
    · rw [inRect_def]; omega
  · refine ⟨(⟨h_mid + 1, b.1.y⟩, ⟨b.2.x, v_mid⟩), ?_, ?_⟩
    · simp only [split_rect, List.mem_append]
      exact Or.inl (Or.inl (Or.inr (by
        rw [if_pos ⟨by omega, by omega⟩]; exact List.mem_singleton.mpr rfl)))
    · rw [inRect_def]; omega
  · refine ⟨(⟨h_mid + 1, v_mid + 1⟩, ⟨b.2.x, b.2.y⟩), ?_, ?_⟩
    · simp only [split_rect, List.mem_append]
      exact Or.inr (by
        rw [if_pos ⟨by omega, by omega⟩]; exact List.mem_singleton.mpr rfl)
    · rw [inRect_def]; omega

theorem split_rect_subset {b : Rect} {h_mid v_mid : Int}
    (hx1 : b.1.x ≤ h_mid) (hx2 : h_mid ≤ b.2.x)
    (hy1 : b.1.y ≤ v_mid) (hy2 : v_mid ≤ b.2.y) :
    ∀ r ∈ split_rect b h_mid v_mid, (∀ p, inRect r p → inRect b p) ∧ properRect r := by
  intro r hr
  simp only [split_rect, List.mem_append] at hr
  rcases hr with ((hr | hr) | hr) | hr <;> split at hr <;>
    first
      | exact absurd hr (List.not_mem_nil _)
      | (rw [List.mem_singleton] at hr; subst hr;
         refine ⟨fun p hp => ?_, ?_⟩
         · rw [inRect_def] at hp
           exact ⟨by omega, by omega, by omega, by omega⟩
         · rw [properRect_def]; omega)

theorem is_leaf_iff {T : Type} {n : Node T} :
    n.is_leaf = true ↔ ∃ b v, n = .leaf b v := by
  cases n <;> simp [Node.is_leaf]

theorem leafValueIs_iff {T : Type} [DecidableEq T] {value : T} {n : Node T} :
    leafValueIs value n = true ↔ ∃ b, n = .leaf b value := by
  cases n <;> simp [leafValueIs, Node.is_leaf, Node.get_value]

theorem read_value_leaf {T : Type} (b : Rect) (v : T) (p : Coordinate) :
    Node.read_value (.leaf b v) p = some v := rfl

theorem read_value_quad {T : Type} (b : Rect) (nodes : List (Node T)) (p : Coordinate) :
    Node.read_value (.quad b nodes) p = readList nodes p := rfl

theorem readList_cons {T : Type} (c : Node T) (rest : List (Node T)) (p : Coordinate) :
    readList (c :: rest) p =
      if c.contains p then c.read_value p else readList rest p := rfl

theorem readList_eq_none {T : Type} {nodes : List (Node T)} {p : Coordinate}
    (h : ∀ c ∈ nodes, ¬ inRect c.get_bounds p) : readList nodes p = none := by
  induction nodes with
  | nil => rfl
  | cons c rest ih =>
    rw [readList_cons, if_neg, ih (fun c hc => h c (List.mem_cons_of_mem _ hc))]
    simp only [contains_iff]
    exact h c (List.mem_cons_self c rest)

theorem readList_isSome {T : Type} {nodes : List (Node T)} {p : Coordinate}
    (hin : ∃ c ∈ nodes, inRect c.get_bounds p)
    (hsome : ∀ c ∈ nodes, inRect c.get_bounds p → ∃ v, c.read_value p = some v) :
    ∃ v, readList nodes p = some v := by
  induction nodes with
  | nil => exact absurd hin (by simp)
  | cons c rest ih =>
    rw [readList_cons]
    by_cases hc : c.contains p = true
    · rw [if_pos hc]
      exact hsome c (List.mem_cons_self c rest) ((contains_iff c p).mp hc)
    · rw [if_neg hc]
      refine ih ?_ (fun d hd hpd => hsome d (List.mem_cons_of_mem _ hd) hpd)
      rcases hin with ⟨d, hd, hpd⟩
      rcases List.mem_cons.mp hd with rfl | hd
      · exact absurd ((contains_iff d p).mpr hpd) hc
      · exact ⟨d, hd, hpd⟩

theorem read_value_isSome_of_wf {T : Type} {n : Node T} (hwf : WF n) :
    ∀ p, inRect n.get_bounds p → ∃ v, n.read_value p = some v := by
  induction hwf with
  | leaf b v hb => exact fun p _ => ⟨v, rfl⟩
  | quad b nodes hb hwfc hsub hcov ih =>
    intro p hp
    rw [read_value_quad]
    exact readList_isSome (hcov p hp) (fun c hc hpc => ih c hc p hpc)

theorem readList_all_value {T : Type} [DecidableEq T] {value : T}
    {nodes : List (Node T)} {p : Coordinate}
    (hall : ∀ c ∈ nodes, leafValueIs value c = true)
    (hin : ∃ c ∈ nodes, inRect c.get_bounds p) :
    readList nodes p = some value := by
  induction nodes with
  | nil => exact absurd hin (by simp)
  | cons c rest ih =>
    rw [readList_cons]
    by_cases hc : c.contains p = true
    · rw [if_pos hc]
      obtain ⟨b, rfl⟩ := leafValueIs_iff.mp (hall c (List.mem_cons_self c rest))
      rfl
    · rw [if_neg hc]
      refine ih (fun d hd => hall d (List.mem_cons_of_mem _ hd)) ?_
      rcases hin with ⟨d, hd, hpd⟩
      rcases List.mem_cons.mp hd with rfl | hd
      · exact absurd ((contains_iff d p).mpr hpd) hc
      · exact ⟨d, hd, hpd⟩

theorem readList_congr {T : Type} {nodes nodes' : List (Node T)} {p : Coordinate}
    (h : List.Forall₂ (fun c c' => c'.get_bounds = c.get_bounds ∧
      (inRect c.get_bounds p → c'.read_value p = c.read_value p)) nodes nodes') :
    readList nodes' p = readList nodes p := by
  induction h with
  | nil => rfl
  | cons hcc hrest ih =>
    rename_i c c' cs cs'
    rw [readList_cons, readList_cons]
    have hb : c'.contains p = c.contains p := by
      simp only [Node.contains, hcc.1]
    rw [hb]
    by_cases hc : c.contains p = true
    · rw [if_pos hc, if_pos hc, hcc.2 ((contains_iff c p).mp hc)]
    · rw [if_neg hc, if_neg hc, ih]

theorem readList_map_leaf {T : Type} {rs : List Rect} {v : T} {p : Coordinate}
    (hin : ∃ r ∈ rs, inRect r p) :
    readList (rs.map (fun r => Node.leaf r v)) p = some v := by
  induction rs with
  | nil => exact absurd hin (by simp)
  | cons r rest ih =>
    rw [List.map_cons, readList_cons]
    by_cases hc : (Node.leaf r v).contains p = true
    · rw [if_pos hc]; rfl
    · rw [if_neg hc]
      refine ih ?_
      rcases hin with ⟨r', hr', hpr'⟩
      rcases List.mem_cons.mp hr' with rfl | hr'
      · exact absurd ((contains_iff (Node.leaf r' v) p).mpr hpr') hc
      · exact ⟨r', hr', hpr'⟩

theorem split_leaf_eq {T : Type} {b : Rect} {v : T} {n' : Node T}
    (h : Node.split (.leaf b v) = some n') :
    b.2.x - b.1.x > 0 ∧ b.2.y - b.1.y > 0 ∧
    n' = .quad b ((split_rect b (Int.tdiv (b.2.x + b.1.x) 2)
      (Int.tdiv (b.2.y + b.1.y) 2)).map (fun r => Node.leaf r v)) := by
  simp only [Node.split] at h
  split at h
  · rename_i hc
    exact ⟨hc.1, hc.2, (Option.some_inj.mp h).symm⟩
  · cases h

theorem split_quad_eq {T : Type} {b : Rect} {nodes : List (Node T)} {n' : Node T}
    (h : Node.split (.quad b nodes) = some n') : n' = .quad b nodes := by
  simp only [Node.split] at h
  exact (Option.some_inj.mp h).symm

theorem split_bounds {T : Type} {n n' : Node T} (h : n.split = some n') :
    n'.get_bounds = n.get_bounds := by
  cases n with
  | quad b nodes => rw [split_quad_eq h]
  | leaf b v => obtain ⟨_, _, rfl⟩ := split_leaf_eq h; rfl

theorem split_spec {T : Type} {n n' : Node T} (hwf : WF n) (h : n.split = some n') :
    ∃ nodes, n' = Node.quad n.get_bounds nodes ∧ WF n' ∧
      (∀ p, inRect n.get_bounds p → n'.read_value p = n.read_value p) := by
  cases n with
  | quad b nodes =>
    rw [split_quad_eq h]
    exact ⟨nodes, rfl, hwf, fun p _ => rfl⟩
  | leaf b v =>
    obtain ⟨hx, hy, rfl⟩ := split_leaf_eq h
    have hmx := tdiv_mid_le (le_of_lt (by omega : b.1.x < b.2.x))
    have hmy := tdiv_mid_le (le_of_lt (by omega : b.1.y < b.2.y))
    have hsub := split_rect_subset (b := b) hmx.1 hmx.2 hmy.1 hmy.2
    have hproper : properRect b := by cases hwf with | leaf _ _ hb => exact hb
    refine ⟨_, rfl, ?_, ?_⟩
    · refine WF.quad b _ hproper ?_ ?_ ?_
      · intro c hc
        obtain ⟨r, hr, rfl⟩ := List.mem_map.mp hc
        exact WF.leaf r v (hsub r hr).2
      · intro c hc p hp
        obtain ⟨r, hr, rfl⟩ := List.mem_map.mp hc
        exact (hsub r hr).1 p hp
      · intro p hp
        obtain ⟨r, hr, hpr⟩ := split_rect_cover hp
        exact ⟨Node.leaf r v, List.mem_map_of_mem _ hr, hpr⟩
    · intro p hp
      have hp' : inRect b p := hp
      rw [read_value_quad, read_value_leaf,
        readList_map_leaf (split_rect_cover hp')]

theorem consolidate_bounds {T : Type} {n n' : Node T} (h : n.consolidate = some n') :
    n'.get_bounds = n.get_bounds := by
  cases n with
  | leaf b v => simp only [Node.consolidate] at h; rw [← Option.some_inj.mp h]
  | quad b nodes =>
    simp only [Node.consolidate] at h
    split at h
    · rw [← Option.some_inj.mp h]; rfl
    · cases h

theorem consolidate_of_all_value {T : Type} [DecidableEq T] {b : Rect} {value : T}
    {nodes : List (Node T)} (hne : nodes ≠ [])
    (hall : ∀ c ∈ nodes, leafValueIs value c = true) :
    (Node.quad b nodes).consolidate = some (.leaf b value) := by
  cases nodes with
  | nil => exact absurd rfl hne
  | cons c rest =>
    obtain ⟨b0, rfl⟩ := leafValueIs_iff.mp (hall c (List.mem_cons_self c rest))
    rfl

theorem readList_skip_pre {T : Type} {pre : List (Node T)} (rest : List (Node T))
    {p : Coordinate} (hpre : ∀ d ∈ pre, ¬ inRect d.get_bounds p) :
    readList (pre ++ rest) p = readList rest p := by
  induction pre with
  | nil => rfl
  | cons d pre ih =>
    rw [List.cons_append, readList_cons, if_neg, ih]
    · exact fun e he => hpre e (List.mem_cons_of_mem _ he)
    · simp only [contains_iff]
      exact hpre d (List.mem_cons_self d pre)

theorem exists_bounds_transfer {T : Type} {nodes nodes' : List (Node T)}
    (h : List.Forall₂ (fun c c' => c'.get_bounds = c.get_bounds) nodes nodes')
    {p : Coordinate} (hin : ∃ c ∈ nodes, inRect c.get_bounds p) :
    ∃ c' ∈ nodes', inRect c'.get_bounds p := by
  induction h with
  | nil => exact absurd hin (by simp)
  | cons hcc hrest ih =>
    rename_i c c' cs cs'
    rcases hin with ⟨d, hd, hpd⟩
    rcases List.mem_cons.mp hd with rfl | hd
    · exact ⟨c', List.mem_cons_self _ _, by rw [hcc]; exact hpd⟩
    · obtain ⟨d', hd', hpd'⟩ := ih ⟨d, hd, hpd⟩
      exact ⟨d', List.mem_cons_of_mem _ hd', hpd'⟩

theorem updateFirst_spec {T : Type} {f : Node T → Option (Node T)}
    {point : Coordinate} {nodes nodes' : List (Node T)} {flag : Bool}
    (h : updateFirst f point nodes = some (nodes', flag)) :
    ∃ pre c c' post,
      nodes = pre ++ c :: post ∧ nodes' = pre ++ c' :: post ∧
      (∀ d ∈ pre, ¬ inRect d.get_bounds point) ∧
      inRect c.get_bounds point ∧ f c = some c' ∧ flag = c'.is_leaf := by
  induction nodes generalizing nodes' flag with
  | nil => cases h
  | cons n rest ih =>
    simp only [updateFirst] at h
    by_cases hc : n.contains point = true
    · rw [if_pos hc] at h
      cases hf : f n with
      | none => rw [hf] at h; cases h
      | some n1 =>
        rw [hf] at h
        obtain ⟨h1, h2⟩ := Prod.mk.injEq .. ▸ Option.some_inj.mp h
        exact ⟨[], n, n1, rest, rfl, by rw [← h1]; rfl,
          by simp, (contains_iff n point).mp hc, hf, h2.symm⟩
    · rw [if_neg hc] at h
      cases hr : updateFirst f point rest with
      | none => rw [hr] at h; cases h
      | some pr =>
        obtain ⟨rest', flag'⟩ := pr
        rw [hr] at h
        obtain ⟨h1, h2⟩ := Prod.mk.injEq .. ▸ Option.some_inj.mp h
        obtain ⟨pre, c, c', post, e1, e2, hpre, hcp, hfc, hflag⟩ := ih hr
        refine ⟨n :: pre, c, c', post, by rw [e1]; rfl, by rw [← h1, e2]; rfl,
          ?_, hcp, hfc, h2 ▸ hflag⟩
        intro d hd
        rcases List.mem_cons.mp hd with rfl | hd
        · simp only [contains_iff] at hc; exact hc
        · exact hpre d hd

theorem coordinate_ext {a b : Coordinate} (hx : a.x = b.x) (hy : a.y = b.y) :
    a = b := by
  cases a; cases b; dsimp only at hx hy; rw [hx, hy]

theorem insert_value_spec {T : Type} [DecidableEq T] (fuel : Nat) :
    ∀ {n n' : Node T} {value : T} {point : Coordinate},
      WF n → insert_value fuel n value point = some n' →
      n'.get_bounds = n.get_bounds ∧
      inRect n.get_bounds point ∧
      n'.read_value point = some value ∧
      (∀ r, r ≠ point → inRect n.get_bounds r → n'.read_value r = n.read_value r) := by
  induction fuel with
  | zero => intro n n' value point hwf h; cases h
  | succ fuel ih =>
    intro n n' value point hwf h
    simp only [insert_value] at h
    by_cases hpt : point = n.get_bounds.1 ∧ point = n.get_bounds.2
    · rw [if_pos hpt] at h
      have hq12 : n.get_bounds.1 = n.get_bounds.2 := hpt.1.symm.trans hpt.2
      cases n with
      | quad b ns => cases h
      | leaf b v0 =>
        have hn' : n' = .leaf b value := (Option.some_inj.mp h).symm
        subst hn'
        have hin : inRect (Node.leaf b v0).get_bounds point :=
          ⟨le_of_eq (by rw [hpt.1]), le_of_eq (by rw [hpt.2]),
           le_of_eq (by rw [hpt.1]), le_of_eq (by rw [hpt.2])⟩
        refine ⟨rfl, hin, rfl, ?_⟩
        intro r hr hrin
        exfalso
        apply hr
        obtain ⟨h1, h2, h3, h4⟩ := hrin
        have hqx := congrArg Coordinate.x hq12
        have hqy := congrArg Coordinate.y hq12
        have hpx := congrArg Coordinate.x hpt.1
        have hpy := congrArg Coordinate.y hpt.1
        exact coordinate_ext (by omega) (by omega)
    · rw [if_neg hpt] at h
      split at h
      · cases h
      · cases h
      · rename_i bq nodesq heq
        obtain ⟨nodes0, heq0, hwf1, hread1⟩ := split_spec hwf heq
        injection heq0 with hbq hnq
        subst hnq
        cases hwf1 with
        | quad _ _ hprop hwfc hsubs hcov =>
        rw [hbq] at hsubs hcov
        split at h
        · cases h
        · rename_i nodes1 childLeaf hu
          obtain ⟨pre, c, c', post, e1, e2, hpre, hcp, hfc, hflag⟩ := updateFirst_spec hu
          have hcmem : c ∈ nodesq := by
            rw [e1]; exact List.mem_append_right _ (List.mem_cons_self c post)
          obtain ⟨ihb, ihin, ihread, ihframe⟩ := ih (hwfc c hcmem) hfc
          have hptin : inRect n.get_bounds point := hsubs c hcmem point hcp
          have hfa : List.Forall₂ (fun (d d' : Node T) => d'.get_bounds = d.get_bounds ∧
              ∀ r, r ≠ point → inRect d.get_bounds r →
                d'.read_value r = d.read_value r) nodesq nodes1 := by
            rw [e1, e2]
            refine List.rel_append
              (List.forall₂_same.mpr fun d _ => ⟨rfl, fun _ _ _ => rfl⟩) ?_
            exact List.Forall₂.cons ⟨ihb, fun r hr hin => ihframe r hr hin⟩
              (List.forall₂_same.mpr fun d _ => ⟨rfl, fun _ _ _ => rfl⟩)
          have hreadpt : readList nodes1 point = some value := by
            rw [e2, readList_skip_pre _ hpre, readList_cons, if_pos]
            · exact ihread
            · rw [contains_iff, ihb]; exact hcp
          have hframe1 : ∀ r, r ≠ point → readList nodes1 r = readList nodesq r := by
            intro r hr
            exact readList_congr (List.Forall₂.imp
              (fun _ _ hdd => ⟨hdd.1, fun hin => hdd.2 r hr hin⟩) hfa)
          split at h
          · rename_i hcond
            have hall : ∀ d ∈ nodes1, leafValueIs value d = true :=
              List.all_eq_true.mp hcond.2
            have hne : nodes1 ≠ [] := by rw [e2]; simp
            rw [consolidate_of_all_value hne hall] at h
            have hn' : n' = .leaf bq value := (Option.some_inj.mp h).symm
            subst hn'
            refine ⟨hbq, hptin, rfl, ?_⟩
            intro r hr hrin
            rw [read_value_leaf, ← hread1 r hrin, read_value_quad, ← hframe1 r hr]
            refine (readList_all_value hall ?_).symm
            exact exists_bounds_transfer
              (List.Forall₂.imp (fun _ _ hdd => hdd.1) hfa) (hcov r hrin)
          · have hn' : n' = .quad bq nodes1 := (Option.some_inj.mp h).symm
            subst hn'
            refine ⟨hbq, hptin, ?_, ?_⟩
            · rw [read_value_quad]; exact hreadpt
            · intro r hr hrin
              rw [read_value_quad, hframe1 r hr, ← read_value_quad n.get_bounds]
              exact hread1 r hrin

theorem readList_eq_of_all {T : Type} {nodes : List (Node T)} {p : Coordinate} {v : T}
    (hall : ∀ d ∈ nodes, inRect d.get_bounds p → d.read_value p = some v)
    (hex : ∃ d ∈ nodes, inRect d.get_bounds p) : readList nodes p = some v := by
  induction nodes with
  | nil => exact absurd hex (by simp)
  | cons c rest ih =>
    rw [readList_cons]
    by_cases hc : c.contains p = true
    · rw [if_pos hc]
      exact hall c (List.mem_cons_self c rest) ((contains_iff c p).mp hc)
    · rw [if_neg hc]
      refine ih (fun d hd => hall d (List.mem_cons_of_mem _ hd)) ?_
      rcases hex with ⟨d, hd, hpd⟩
      rcases List.mem_cons.mp hd with rfl | hd
      · exact absurd ((contains_iff d p).mpr hpd) hc
      · exact ⟨d, hd, hpd⟩

theorem forall₂_mem_right {α β : Type} {R : α → β → Prop} {l : List α} {l' : List β}
    (h : List.Forall₂ R l l') : ∀ b ∈ l', ∃ a ∈ l, R a b := by
  induction h with
  | nil => simp
  | cons hab hrest ih =>
    intro b hb
    rcases List.mem_cons.mp hb with rfl | hb
    · exact ⟨_, List.mem_cons_self _ _, hab⟩
    · obtain ⟨a, ha, hr⟩ := ih b hb
      exact ⟨a, List.mem_cons_of_mem _ ha, hr⟩

theorem rangeChildren_spec {T : Type} {f : Node T → Rect → Option (Node T)}
    {R : Rect} (value : T) {nodes nodes' : List (Node T)}
    (hf : ∀ c ∈ nodes, ∀ i c', rect_intersection c.get_bounds R = some i →
      f c i = some c' →
      c'.get_bounds = c.get_bounds ∧
      (∀ p, inRect i p → c'.read_value p = some value) ∧
      (∀ q, inRect c.get_bounds q → ¬ inRect i q → c'.read_value q = c.read_value q))
    (h : rangeChildren f R nodes = some nodes') :
    List.Forall₂ (fun (d d' : Node T) => d'.get_bounds = d.get_bounds ∧
      (∀ p, inRect d.get_bounds p → inRect R p → d'.read_value p = some value) ∧
      (∀ q, inRect d.get_bounds q → ¬ inRect R q → d'.read_value q = d.read_value q))
      nodes nodes' := by
  induction nodes generalizing nodes' with
  | nil =>
    simp only [rangeChildren] at h
    rw [← Option.some_inj.mp h]
    exact List.Forall₂.nil
  | cons c rest ih =>
    simp only [rangeChildren] at h
    cases hI : rect_intersection c.get_bounds R with
    | none =>
      rw [hI] at h
      cases hr : rangeChildren f R rest with
      | none => rw [hr] at h; cases h
      | some rest' =>
        rw [hr] at h
        rw [← Option.some_inj.mp h]
        refine List.Forall₂.cons ⟨rfl, ?_, fun q _ _ => rfl⟩
          (ih (fun d hd => hf d (List.mem_cons_of_mem _ hd)) hr)
        exact fun p hp hR => absurd ⟨hp, hR⟩ (rect_intersection_none hI p)
    | some i =>
      rw [hI] at h
      have h2 : (match f c i with
          | none => none
          | some c' =>
            match rangeChildren f R rest with
            | none => none
            | some rest' => some (c' :: rest')) = some nodes' := h
      clear h
      cases hfc : f c i with
      | none => rw [hfc] at h2; cases h2
      | some c' =>
        rw [hfc] at h2
        cases hr : rangeChildren f R rest with
        | none => rw [hr] at h2; cases h2
        | some rest' =>
          rw [hr] at h2
          rw [← Option.some_inj.mp h2]
          obtain ⟨hb, hip, hframe⟩ := hf c (List.mem_cons_self c rest) i c' hI hfc
          refine List.Forall₂.cons ⟨hb, ?_, ?_⟩
            (ih (fun d hd => hf d (List.mem_cons_of_mem _ hd)) hr)
          · exact fun p hp hR => hip p ((rect_intersection_some hI p).mpr ⟨hp, hR⟩)
          · exact fun q hq hR => hframe q hq
              (fun hiq => hR ((rect_intersection_some hI q).mp hiq).2)

theorem insert_value_range_spec {T : Type} [DecidableEq T] (fuel : Nat) :
    ∀ {n n' : Node T} {value : T} {R : Rect},
      WF n → insert_value_range fuel n value R = some n' →
      n'.get_bounds = n.get_bounds ∧
      (∀ p, inRect n.get_bounds p → inRect R p → n'.read_value p = some value) ∧
      (∀ q, inRect n.get_bounds q → ¬ inRect R q → n'.read_value q = n.read_value q) := by
  induction fuel with
  | zero => intro n n' value R hwf h; cases h
  | succ fuel ih =>
    intro n n' value R hwf h
    simp only [insert_value_range] at h
    by_cases hR : n.get_bounds = R
    · rw [if_pos hR] at h
      rw [← Option.some_inj.mp h]
      refine ⟨hR.symm, fun p _ _ => rfl, fun q hq hnR => absurd (hR ▸ hq) hnR⟩
    · rw [if_neg hR] at h
      split at h
      · cases h
      · cases h
      · rename_i bq nodesq heq
        obtain ⟨nodes0, heq0, hwf1, hread1⟩ := split_spec hwf heq
        injection heq0 with hbq hnq
        subst hnq
        cases hwf1 with
        | quad _ _ hprop hwfc hsubs hcov =>
        rw [hbq] at hsubs hcov
        split at h
        · cases h
        · rename_i nodes1 hrc
          have hfa := rangeChildren_spec value
            (fun c hc i c' hI hfc => by
              obtain ⟨b1, p1, f1⟩ := ih (hwfc c hc) hfc
              refine ⟨b1, fun p hpi => ?_, fun q hq hiq => f1 q hq hiq⟩
              exact p1 p ((rect_intersection_some hI p).mp hpi).1 hpi) hrc
          have hcovtrans : ∀ r, inRect n.get_bounds r →
              ∃ d ∈ nodes1, inRect d.get_bounds r := fun r hr =>
            exists_bounds_transfer
              (List.Forall₂.imp (fun _ _ hdd => hdd.1) hfa) (hcov r hr)
          have hframe1 : ∀ q, ¬ inRect R q →
              readList nodes1 q = readList nodesq q := by
            intro q hnR
            exact readList_congr (List.Forall₂.imp
              (fun _ _ hdd => ⟨hdd.1, fun hin => hdd.2.2 q hin hnR⟩) hfa)
          have hreadp : ∀ p, inRect n.get_bounds p → inRect R p →
              readList nodes1 p = some value := by
            intro p hp hRp
            refine readList_eq_of_all ?_ (hcovtrans p hp)
            intro d' hd' hpd'
            obtain ⟨d, hd, hdd⟩ := forall₂_mem_right hfa d' hd'
            exact hdd.2.1 p (hdd.1 ▸ hpd') hRp
          split at h
          · rename_i hcond
            have hall : ∀ d ∈ nodes1, leafValueIs value d = true :=
              List.all_eq_true.mp hcond
            have hne : nodes1 ≠ [] := by
              have hbin : inRect n.get_bounds n.get_bounds.1 := by
                rw [← hbq]
                exact ⟨le_refl _, hprop.1, le_refl _, hprop.2⟩
              obtain ⟨d, hd, _⟩ := hcovtrans _ hbin
              exact List.ne_nil_of_mem hd
            rw [consolidate_of_all_value hne hall] at h
            rw [← Option.some_inj.mp h]
            refine ⟨hbq, fun p _ _ => rfl, ?_⟩
            intro q hq hnR
            rw [read_value_leaf, ← hread1 q hq, read_value_quad, ← hframe1 q hnR]
            exact (readList_all_value hall (hcovtrans q hq)).symm
          · rw [← Option.some_inj.mp h]
            refine ⟨hbq, ?_, ?_⟩
            · intro p hp hRp
              rw [read_value_quad]
              exact hreadp p hp hRp
            · intro q hq hnR
              rw [read_value_quad, hframe1 q hnR, ← read_value_quad n.get_bounds]
              exact hread1 q hq

theorem insert_value_bounds {T : Type} [DecidableEq T] {fuel : Nat} {n n' : Node T}
    {value : T} {point : Coordinate} (h : insert_value fuel n value point = some n') :
    n'.get_bounds = n.get_bounds := by
  cases fuel with
  | zero => cases h
  | succ fuel =>
    simp only [insert_value] at h
    by_cases hpt : point = n.get_bounds.1 ∧ point = n.get_bounds.2
    · rw [if_pos hpt] at h
      cases n with
      | quad b ns => cases h
      | leaf b v0 => rw [← Option.some_inj.mp h]; rfl
    · rw [if_neg hpt] at h
      split at h
      · cases h
      · cases h
      · rename_i bq nodesq heq
        have hb := split_bounds heq
        split at h
        · cases h
        · rename_i nodes1 childLeaf hu
          split at h
          · exact (consolidate_bounds h).trans hb
          · rw [← Option.some_inj.mp h]; exact hb

theorem insert_value_range_bounds {T : Type} [DecidableEq T] {fuel : Nat}
    {n n' : Node T} {value : T} {R : Rect}
    (h : insert_value_range fuel n value R = some n') :
    n'.get_bounds = n.get_bounds := by
  cases fuel with
  | zero => cases h
  | succ fuel =>
    simp only [insert_value_range] at h
    by_cases hR : n.get_bounds = R
    · rw [if_pos hR] at h
      rw [← Option.some_inj.mp h]
      exact hR.symm
    · rw [if_neg hR] at h
      split at h
      · cases h
      · cases h
      · rename_i bq nodesq heq
        have hb := split_bounds heq
        split at h
        · cases h
        · rename_i nodes1 hrc
          split at h
          · exact (consolidate_bounds h).trans hb
          · rw [← Option.some_inj.mp h]; exact hb

theorem applyOp_bounds {T : Type} [DecidableEq T] {fuel : Nat} {q q' : Quadtree T}
    {op : QuadOp T} (h : applyOp fuel q op = some q') :
    q'.inner.get_bounds = q.inner.get_bounds := by
  cases op with
  | point value point =>
    simp only [applyOp, Quadtree.insert] at h
    cases hv : insert_value fuel q.inner value point with
    | none => rw [hv] at h; cases h
    | some m =>
      rw [hv] at h
      rw [← Option.some_inj.mp h]
      exact insert_value_bounds hv
  | range value rect =>
    simp only [applyOp, Quadtree.insert_rect] at h
    cases hv : insert_value_range fuel q.inner value rect with
    | none => rw [hv] at h; cases h
    | some m =>
      rw [hv] at h
      rw [← Option.some_inj.mp h]
      exact insert_value_range_bounds hv

theorem applyOps_bounds {T : Type} [DecidableEq T] {fuel : Nat} {q q' : Quadtree T}
    {ops : List (QuadOp T)} (h : applyOps fuel q ops = some q') :
    q'.inner.get_bounds = q.inner.get_bounds := by
  induction ops generalizing q with
  | nil => simp only [applyOps] at h; rw [← Option.some_inj.mp h]
  | cons op ops ih =>
    simp only [applyOps] at h
    cases hop : applyOp fuel q op with
    | none => rw [hop] at h; cases h
    | some q1 =>
      rw [hop] at h
      exact (ih h).trans (applyOp_bounds hop)

theorem insert_value_leaf_result {T : Type} [DecidableEq T] {fuel : Nat}
    {n : Node T} {value : T} {point : Coordinate} {b : Rect} {v : T}
    (h : insert_value fuel n value point = some (.leaf b v)) : v = value := by
  cases fuel with
  | zero => cases h
  | succ fuel =>
    simp only [insert_value] at h
    by_cases hpt : point = n.get_bounds.1 ∧ point = n.get_bounds.2
    · rw [if_pos hpt] at h
      cases n with
      | quad b0 ns => cases h
      | leaf b0 v0 =>
        injection Option.some_inj.mp h with h1 h2
        exact h2.symm
    · rw [if_neg hpt] at h
      split at h
      · cases h
      · cases h
      · rename_i bq nodesq heq
        split at h
        · cases h
        · rename_i nodes1 childLeaf hu
          split at h
          · rename_i hcond
            obtain ⟨pre, c, c', post, e1, e2, hpre, hcp, hfc, hflag⟩ :=
              updateFirst_spec hu
            have hne : nodes1 ≠ [] := by rw [e2]; simp
            rw [consolidate_of_all_value hne (List.all_eq_true.mp hcond.2)] at h
            injection Option.some_inj.mp h with h1 h2
            exact h2.symm
          · cases Option.some_inj.mp h

theorem insert_value_range_leaf_result {T : Type} [DecidableEq T] {fuel : Nat}
    {n : Node T} {value : T} {R : Rect} {b : Rect} {v : T}
    (h : insert_value_range fuel n value R = some (.leaf b v)) : v = value := by
  cases fuel with
  | zero => cases h
  | succ fuel =>
    simp only [insert_value_range] at h
    by_cases hR : n.get_bounds = R
    · rw [if_pos hR] at h
      injection Option.some_inj.mp h with h1 h2
      exact h2.symm
    · rw [if_neg hR] at h
      split at h
      · cases h
      · cases h
      · rename_i bq nodesq heq
        split at h
        · cases h
        · rename_i nodes1 hrc
          split at h
          · rename_i hcond
            cases hnn : nodes1 with
            | nil =>
              rw [hnn] at h
              cases h
            | cons c0 rest0 =>
              rw [hnn] at h hcond
              rw [consolidate_of_all_value (by simp)
                (List.all_eq_true.mp hcond)] at h
              injection Option.some_inj.mp h with h1 h2
              exact h2.symm
          · cases Option.some_inj.mp h

theorem rect_intersection_proper {l r i : Rect}
    (h : rect_intersection l r = some i) : properRect i := by
  unfold rect_intersection at h
  by_cases h1 : max l.1.x r.1.x > min l.2.x r.2.x
  · simp [h1] at h
  · by_cases h2 : max l.1.y r.1.y > min l.2.y r.2.y
    · simp [h1, h2] at h
    · simp [h1, h2] at h
      rw [← h, properRect_def]
      omega

theorem rangeChildren_rel {T : Type} {f : Node T → Rect → Option (Node T)}
    {R : Rect} {nodes nodes' : List (Node T)}
    (h : rangeChildren f R nodes = some nodes') :
    List.Forall₂ (fun (d d' : Node T) =>
      (rect_intersection d.get_bounds R = none ∧ d' = d) ∨
      (∃ i, rect_intersection d.get_bounds R = some i ∧ f d i = some d'))
      nodes nodes' := by
  induction nodes generalizing nodes' with
  | nil =>
    simp only [rangeChildren] at h
    rw [← Option.some_inj.mp h]
    exact List.Forall₂.nil
  | cons c rest ih =>
    simp only [rangeChildren] at h
    cases hI : rect_intersection c.get_bounds R with
    | none =>
      rw [hI] at h
      cases hr : rangeChildren f R rest with
      | none => rw [hr] at h; cases h
      | some rest' =>
        rw [hr] at h
        rw [← Option.some_inj.mp h]
        exact List.Forall₂.cons (Or.inl ⟨hI, rfl⟩) (ih hr)
    | some i =>
      rw [hI] at h
      have h2 : (match f c i with
          | none => none
          | some c' =>
            match rangeChildren f R rest with
            | none => none
            | some rest' => some (c' :: rest')) = some nodes' := h
      clear h
      cases hfc : f c i with
      | none => rw [hfc] at h2; cases h2
      | some c' =>
        rw [hfc] at h2
        cases hr : rangeChildren f R rest with
        | none => rw [hr] at h2; cases h2
        | some rest' =>
          rw [hr] at h2
          rw [← Option.some_inj.mp h2]
          exact List.Forall₂.cons (Or.inr ⟨i, hI, hfc⟩) (ih hr)

theorem forall₂_mem_left {α β : Type} {R : α → β → Prop} {l : List α} {l' : List β}
    (h : List.Forall₂ R l l') : ∀ a ∈ l, ∃ b ∈ l', R a b := by
  induction h with
  | nil => simp
  | cons hab hrest ih =>
    intro a ha
    rcases List.mem_cons.mp ha with rfl | ha
    · exact ⟨_, List.mem_cons_self _ _, hab⟩
    · obtain ⟨b, hb, hr⟩ := ih a ha
      exact ⟨b, List.mem_cons_of_mem _ hb, hr⟩

theorem split_children_mc {T : Type} {n : Node T} {bq : Rect} {nodesq : List (Node T)}
    (hmc : Consolidated n) (heq : n.split = some (.quad bq nodesq)) :
    ∀ c ∈ nodesq, Consolidated c := by
  cases n with
  | leaf b v0 =>
    obtain ⟨hx, hy, he⟩ := split_leaf_eq heq
    injection he with hb1 hn1
    rw [hn1]
    intro c hc
    obtain ⟨r, hr, rfl⟩ := List.mem_map.mp hc
    exact Consolidated.leaf r v0
  | quad b ns =>
    have he := split_quad_eq heq
    injection he with hb1 hn1
    rw [hn1]
    cases hmc with
    | quad _ _ hmcc hnu => exact hmcc

theorem insert_value_mc {T : Type} [DecidableEq T] (fuel : Nat) :
    ∀ {n n' : Node T} {value : T} {point : Coordinate}, Consolidated n →
      insert_value fuel n value point = some n' → Consolidated n' := by
  induction fuel with
  | zero => intro n n' value point _ h; cases h
  | succ fuel ih =>
    intro n n' value point hmc h
    simp only [insert_value] at h
    by_cases hpt : point = n.get_bounds.1 ∧ point = n.get_bounds.2
    · rw [if_pos hpt] at h
      cases n with
      | quad b ns => cases h
      | leaf b v0 =>
        rw [← Option.some_inj.mp h]
        exact Consolidated.leaf b value
    · rw [if_neg hpt] at h
      split at h
      · cases h
      · cases h
      · rename_i bq nodesq heq
        have hmcc := split_children_mc hmc heq
        split at h
        · cases h
        · rename_i nodes1 childLeaf hu
          obtain ⟨pre, c, c', post, e1, e2, hpre, hcp, hfc, hflag⟩ :=
            updateFirst_spec hu
          have hc'mc : Consolidated c' :=
            ih (hmcc c (by
              rw [e1]; exact List.mem_append_right _ (List.mem_cons_self c post))) hfc
          have hmcc1 : ∀ d ∈ nodes1, Consolidated d := by
            intro d hd
            rw [e2] at hd
            rcases List.mem_append.mp hd with hd | hd
            · exact hmcc d (by rw [e1]; exact List.mem_append_left _ hd)
            · rcases List.mem_cons.mp hd with rfl | hd
              · exact hc'mc
              · exact hmcc d (by
                  rw [e1]
                  exact List.mem_append_right _ (List.mem_cons_of_mem _ hd))
          split at h
          · rename_i hcond
            have hne : nodes1 ≠ [] := by rw [e2]; simp
            rw [consolidate_of_all_value hne (List.all_eq_true.mp hcond.2)] at h
            rw [← Option.some_inj.mp h]
            exact Consolidated.leaf _ _
          · rename_i hcond
            rw [← Option.some_inj.mp h]
            refine Consolidated.quad _ _ hmcc1 ?_
            rintro ⟨hne, u, hall⟩
            apply hcond
            have hc'mem : c' ∈ nodes1 := by
              rw [e2]; exact List.mem_append_right _ (List.mem_cons_self c' post)
            obtain ⟨hc'leaf, hc'val⟩ := hall c' hc'mem
            obtain ⟨bc, vc, hc'eq⟩ := is_leaf_iff.mp hc'leaf
            subst hc'eq
            have hvu : vc = u := Option.some_inj.mp hc'val
            have hvval : vc = value := insert_value_leaf_result hfc
            refine ⟨by rw [hflag]; rfl, ?_⟩
            rw [List.all_eq_true]
            intro d hd
            obtain ⟨hdleaf, hdval⟩ := hall d hd
            obtain ⟨bd, vd, hdeq⟩ := is_leaf_iff.mp hdleaf
            subst hdeq
            have hdu : vd = u := Option.some_inj.mp hdval
            rw [leafValueIs_iff]
            exact ⟨bd, by rw [hdu, ← hvu, hvval]⟩

theorem insert_value_range_mc {T : Type} [DecidableEq T] (fuel : Nat) :
    ∀ {n n' : Node T} {value : T} {R : Rect}, WF n → Consolidated n →
      (∃ p, inRect n.get_bounds p ∧ inRect R p) →
      insert_value_range fuel n value R = some n' → Consolidated n' := by
  induction fuel with
  | zero => intro n n' value R _ _ _ h; cases h
  | succ fuel ih =>
    intro n n' value R hwf hmc hex h
    simp only [insert_value_range] at h
    by_cases hR : n.get_bounds = R
    · rw [if_pos hR] at h
      rw [← Option.some_inj.mp h]
      exact Consolidated.leaf R value
    · rw [if_neg hR] at h
      split at h
      · cases h
      · cases h
      · rename_i bq nodesq heq
        have hmcc := split_children_mc hmc heq
        obtain ⟨nodes0, heq0, hwf1, hread1⟩ := split_spec hwf heq
        injection heq0 with hbq hnq
        subst hnq
        cases hwf1 with
        | quad _ _ hprop hwfc hsubs hcov =>
        rw [hbq] at hsubs hcov
        split at h
        · cases h
        · rename_i nodes1 hrc
          have hrel := rangeChildren_rel hrc
          have hmcc1 : ∀ d' ∈ nodes1, Consolidated d' := by
            intro d' hd'
            obtain ⟨d, hd, hdd⟩ := forall₂_mem_right hrel d' hd'
            rcases hdd with ⟨_, rfl⟩ | ⟨i, hI, hfc⟩
            · exact hmcc _ hd
            · refine ih (hwfc d hd) (hmcc d hd) ?_ hfc
              have hip := rect_intersection_proper hI
              have hi1 : inRect i i.1 := ⟨le_refl _, hip.1, le_refl _, hip.2⟩
              exact ⟨i.1, ((rect_intersection_some hI i.1).mp hi1).1, hi1⟩
          split at h
          · rename_i hcond
            have hlen := List.Forall₂.length_eq hrel
            have hne : nodes1 ≠ [] := by
              obtain ⟨p0, hp0b, hp0R⟩ := hex
              obtain ⟨d, hd, _⟩ := hcov p0 hp0b
              intro hnil
              rw [hnil, List.length_nil] at hlen
              exact List.ne_nil_of_mem hd (List.length_eq_zero.mp hlen)
            rw [consolidate_of_all_value hne (List.all_eq_true.mp hcond)] at h
            rw [← Option.some_inj.mp h]
            exact Consolidated.leaf _ _
          · rename_i hcond
            rw [← Option.some_inj.mp h]
            refine Consolidated.quad _ _ hmcc1 ?_
            rintro ⟨hne, u, hall⟩
            apply hcond
            obtain ⟨p0, hp0b, hp0R⟩ := hex
            obtain ⟨d, hd, hp0d⟩ := hcov p0 hp0b
            obtain ⟨d', hd', hdd⟩ := forall₂_mem_left hrel d hd
            rcases hdd with ⟨hnone, rfl⟩ | ⟨i, hI, hfc⟩
            · exact absurd ⟨hp0d, hp0R⟩ (rect_intersection_none hnone p0)
            · obtain ⟨hdleaf, hdval⟩ := hall d' hd'
              obtain ⟨bd, vd, hdeq⟩ := is_leaf_iff.mp hdleaf
              subst hdeq
              have hvu : vd = u := Option.some_inj.mp hdval
              have hvv : vd = value := insert_value_range_leaf_result hfc
              rw [List.all_eq_true]
              intro e he
              obtain ⟨heleaf, heval⟩ := hall e he
              obtain ⟨be, ve, heeq⟩ := is_leaf_iff.mp heleaf
              subst heeq
              have hveu : ve = u := Option.some_inj.mp heval
              rw [leafValueIs_iff]
              exact ⟨be, by rw [hveu, ← hvu, hvv]⟩

theorem inRect_mk {b : Rect} {i j : Int} :
    inRect b ⟨i, j⟩ ↔ b.1.x ≤ i ∧ i ≤ b.2.x ∧ b.1.y ≤ j ∧ j ≤ b.2.y := Iff.rfl

theorem intRange_succ (lo : Int) (k : Nat) :
    intRange lo (k + 1) = lo :: intRange (lo + 1) k := rfl

theorem intRange_length (lo : Int) (k : Nat) : (intRange lo k).length = k := by
  induction k generalizing lo with
  | zero => rfl
  | succ k ih => rw [intRange_succ, List.length_cons, ih]

theorem flatMap_rows_length (W : Nat) (lo a : Int) (H : Nat) :
    ((intRange a H).flatMap fun j =>
      (intRange lo W).map fun i => (⟨i, j⟩ : Coordinate)).length = H * W := by
  induction H generalizing a with
  | zero => simp [intRange]
  | succ H ih =>
    rw [intRange_succ, List.flatMap_cons, List.length_append, List.length_map,
      intRange_length, ih]
    ring

theorem toNat_mul_of_nonneg {a b : Int} (ha : 0 ≤ a) (hb : 0 ≤ b) :
    (a * b).toNat = a.toNat * b.toNat := by
  obtain ⟨m, rfl⟩ := Int.eq_ofNat_of_zero_le ha
  obtain ⟨n, rfl⟩ := Int.eq_ofNat_of_zero_le hb
  rw [← Int.ofNat_mul, Int.toNat_ofNat, Int.toNat_ofNat, Int.toNat_ofNat]

theorem coordsFrom_last {b : Rect} : coordsFrom b b.2 = [b.2] := by
  unfold coordsFrom
  have h1 : (b.2.x - b.2.x + 1).toNat = 1 := by omega
  have h2 : (b.2.y - b.2.y).toNat = 0 := by omega
  rw [h1, h2]
  rfl

theorem coordsFrom_row_step {b : Rect} {c : Coordinate} (hx : c.x = b.2.x)
    (hy : c.y < b.2.y) :
    coordsFrom b c = c :: coordsFrom b ⟨b.1.x, c.y + 1⟩ := by
  unfold coordsFrom
  have h1 : (b.2.x - c.x + 1).toNat = 1 := by omega
  have h2 : (b.2.y - c.y).toNat = (b.2.y - (c.y + 1)).toNat + 1 := by omega
  rw [h1, h2]
  rfl

theorem coordsFrom_col_step {b : Rect} {c : Coordinate} (hx : c.x < b.2.x) :
    coordsFrom b c = c :: coordsFrom b ⟨c.x + 1, c.y⟩ := by
  unfold coordsFrom
  have h1 : (b.2.x - c.x + 1).toNat = (b.2.x - (c.x + 1) + 1).toNat + 1 := by omega
  rw [h1, intRange_succ, List.map_cons]
  rfl

theorem specRowMajor_eq {b : Rect} (hp : properRect b) :
    specRowMajorCoords b = coordsFrom b b.1 := by
  unfold specRowMajorCoords coordsFrom
  have h2 : (b.2.y - b.1.y + 1).toNat = (b.2.y - b.1.y).toNat + 1 := by
    obtain ⟨_, h⟩ := hp; omega
  rw [h2, intRange_succ, List.flatMap_cons]

theorem coordsFrom_start_length {b : Rect} (hp : properRect b) :
    (coordsFrom b b.1).length = cellCount b := by
  unfold coordsFrom cellCount
  rw [List.length_append, List.length_map, intRange_length, flatMap_rows_length]
  obtain ⟨h1, h2⟩ := hp
  rw [toNat_mul_of_nonneg (by omega) (by omega)]
  have h3 : (b.2.y - b.1.y + 1).toNat = (b.2.y - b.1.y).toNat + 1 := by omega
  rw [h3]
  ring

theorem iterFrom_spec {T : Type} {q : Quadtree T} (hwf : WF q.inner) :
    ∀ (fuel : Nat) (c : Coordinate), inRect q.inner.get_bounds c →
      fuel = (coordsFrom q.inner.get_bounds c).length →
      (iterFrom fuel q c).map some = (coordsFrom q.inner.get_bounds c).map q.get := by
  intro fuel
  induction fuel with
  | zero =>
    intro c hc hlen
    exfalso
    have h1 : (q.inner.get_bounds.2.x - c.x + 1).toNat ≥ 1 := by
      obtain ⟨_, h2, _, _⟩ := hc; omega
    unfold coordsFrom at hlen
    rw [List.length_append, List.length_map, intRange_length] at hlen
    omega
  | succ fuel ih =>
    intro c hc hlen
    obtain ⟨v, hv⟩ := read_value_isSome_of_wf hwf c hc
    have hv' : q.get c = some v := hv
    simp only [iterFrom, hv']
    by_cases hc2 : c = q.inner.get_bounds.2
    · subst hc2
      rw [if_pos rfl, coordsFrom_last]
      simp only [List.map_cons, List.map_nil, hv']
    · rw [if_neg hc2]
      by_cases hcx : c.x = q.inner.get_bounds.2.x
      · rw [if_pos hcx]
        have hylt : c.y < q.inner.get_bounds.2.y := by
          obtain ⟨_, _, _, h4⟩ := hc
          rcases lt_or_eq_of_le h4 with h | h
          · exact h
          · exact absurd (coordinate_ext hcx h) hc2
        rw [coordsFrom_row_step hcx hylt] at hlen ⊢
        rw [List.length_cons] at hlen
        have hc2in : inRect q.inner.get_bounds ⟨q.inner.get_bounds.1.x, c.y + 1⟩ := by
          obtain ⟨h1, h2, h3, h4⟩ := hc
          rw [inRect_mk]
          omega
        rw [List.map_cons, List.map_cons, hv',
          ih _ hc2in (Nat.succ_injective hlen)]
      · rw [if_neg hcx]
        have hxlt : c.x < q.inner.get_bounds.2.x := by
          obtain ⟨_, h2, _, _⟩ := hc
          exact lt_of_le_of_ne h2 hcx
        rw [coordsFrom_col_step hxlt] at hlen ⊢
        rw [List.length_cons] at hlen
        have hc2in : inRect q.inner.get_bounds ⟨c.x + 1, c.y⟩ := by
          obtain ⟨h1, h2, h3, h4⟩ := hc
          rw [inRect_mk]
          omega
        rw [List.map_cons, List.map_cons, hv',
          ih _ hc2in (Nat.succ_injective hlen)]

theorem iterList_spec {T : Type} {q : Quadtree T} (hwf : WF q.inner)
    (hp : properRect q.inner.get_bounds) :
    (q.iterList).map some = (specRowMajorCoords q.inner.get_bounds).map q.get := by
  unfold Quadtree.iterList
  rw [specRowMajor_eq hp]
  have hstart : inRect q.inner.get_bounds q.inner.get_bounds.1 :=
    ⟨le_refl _, hp.1, le_refl _, hp.2⟩
  exact iterFrom_spec hwf _ _ hstart (coordsFrom_start_length hp).symm

/-! ### Claim theorems -/

/-- Claim C1, counterexample to the statement as written: the rectangle
`[(0,0),(0,0)]` lies inside the governed bounds `[(0,0),(1,2)]`, yet
`insert_rect` does not complete: descending into the width-0 child
`[(0,0),(0,1)]` produced by splitting the root trips the degenerate-split
`assert!` and the process aborts (`none`). -/
theorem insert_rect_inside_bounds_panics :
    inRect ((⟨0, 0⟩ : Coordinate), (⟨1, 2⟩ : Coordinate)) ⟨0, 0⟩ ∧
    Quadtree.insert_rect 100 (Quadtree.new false ⟨0, 0⟩ ⟨1, 2⟩) true
      (⟨0, 0⟩, ⟨0, 0⟩) = none :=
  ⟨by decide, rfl⟩

/-- Claim C1 (amended): for a well-formed tree, when `insert_rect(V, R)` with
`R` inside the governed bounds completes normally, `get(P) = V` for every `P`
inside `R`, and every in-bounds point outside `R` reads what it read before
the call. -/
theorem insert_rect_writes_range {T : Type} [DecidableEq T] (fuel : Nat)
    (q q' : Quadtree T) (value : T) (R : Rect)
    (hwf : WF q.inner)
    (hsub : ∀ p, inRect R p → inRect q.inner.get_bounds p)
    (h : q.insert_rect fuel value R = some q') :
    (∀ p, inRect R p → q'.get p = some value) ∧
    (∀ p, inRect q.inner.get_bounds p → ¬ inRect R p → q'.get p = q.get p) := by
  simp only [Quadtree.insert_rect] at h
  cases hv : insert_value_range fuel q.inner value R with
  | none => rw [hv] at h; cases h
  | some m =>
    rw [hv] at h
    obtain ⟨hb, hin, hout⟩ := insert_value_range_spec fuel hwf hv
    rw [← Option.some_inj.mp h]
    exact ⟨fun p hp => hin p (hsub p hp) hp, fun p hpb hnp => hout p hpb hnp⟩

theorem insert_rect_writes_range_witness :
    (Quadtree.mk (Node.leaf ((⟨0, 0⟩ : Coordinate), (⟨3, 3⟩ : Coordinate)) true)).get
      ⟨1, 1⟩ = some true :=
  (insert_rect_writes_range 1 (Quadtree.new false ⟨0, 0⟩ ⟨3, 3⟩)
    ⟨Node.leaf (⟨0, 0⟩, ⟨3, 3⟩) true⟩ true ((⟨0, 0⟩ : Coordinate), (⟨3, 3⟩ : Coordinate))
    (WF.leaf _ _ (by decide)) (fun p hp => hp) rfl).1 ⟨1, 1⟩ (by decide)

/-- Claim C2, counterexample to the statement as written: `(0,0)` lies inside
the governed rectangle `[(0,0),(1,2)]`, yet `insert` does not complete — the
recursion reaches the width-0 child `[(0,0),(0,1)]` and the degenerate-split
`assert!` aborts the process (`none`), so `get(P)` never comes to return the
inserted value. -/
theorem insert_point_inside_bounds_panics :
    inRect ((⟨0, 0⟩ : Coordinate), (⟨1, 2⟩ : Coordinate)) ⟨0, 0⟩ ∧
    Quadtree.insert 100 (Quadtree.new false ⟨0, 0⟩ ⟨1, 2⟩) true ⟨0, 0⟩ = none :=
  ⟨by decide, rfl⟩

/-- Claim C2 (amended): for a well-formed tree, when `insert(V, P)` completes
normally, `P` was inside the governed rectangle, `get(P) = V`, and every other
in-bounds point reads what it read before the call. -/
theorem insert_writes_point {T : Type} [DecidableEq T] (fuel : Nat)
    (q q' : Quadtree T) (value : T) (point : Coordinate)
    (hwf : WF q.inner) (h : q.insert fuel value point = some q') :
    inRect q.inner.get_bounds point ∧
    q'.get point = some value ∧
    (∀ r, r ≠ point → inRect q.inner.get_bounds r → q'.get r = q.get r) := by
  simp only [Quadtree.insert] at h
  cases hv : insert_value fuel q.inner value point with
  | none => rw [hv] at h; cases h
  | some m =>
    rw [hv] at h
    obtain ⟨hb, hin, hrd, hframe⟩ := insert_value_spec fuel hwf hv
    rw [← Option.some_inj.mp h]
    exact ⟨hin, hrd, fun r hr hrin => hframe r hr hrin⟩

theorem insert_writes_point_witness :
    (Quadtree.mk (Node.quad ((⟨0, 0⟩ : Coordinate), (⟨1, 1⟩ : Coordinate))
      [Node.leaf (⟨0, 0⟩, ⟨0, 0⟩) true, Node.leaf (⟨1, 0⟩, ⟨1, 0⟩) false,
       Node.leaf (⟨0, 1⟩, ⟨0, 1⟩) false,
       Node.leaf (⟨1, 1⟩, ⟨1, 1⟩) false])).get ⟨0, 0⟩ = some true :=
  (insert_writes_point 5 (Quadtree.new false ⟨0, 0⟩ ⟨1, 1⟩)
    ⟨Node.quad (⟨0, 0⟩, ⟨1, 1⟩)
      [Node.leaf (⟨0, 0⟩, ⟨0, 0⟩) true, Node.leaf (⟨1, 0⟩, ⟨1, 0⟩) false,
       Node.leaf (⟨0, 1⟩, ⟨0, 1⟩) false, Node.leaf (⟨1, 1⟩, ⟨1, 1⟩) false]⟩
    true ⟨0, 0⟩ (WF.leaf _ _ (by decide)) (by rfl)).2.1

/-- Claim C3, counterexample to the statement as written: `insert_rect` with a
target rectangle entirely outside the governed bounds splits the root leaf,
touches no child, and leaves a branch whose four children are leaves all
holding the old value `false` ≠ inserted `true` — the post-insertion check
compares children to the inserted value, so the branch survives. -/
theorem insert_rect_outside_breaks_consolidation :
    Quadtree.insert_rect 5 (Quadtree.new false ⟨0, 0⟩ ⟨3, 3⟩) true
      (⟨10, 10⟩, ⟨11, 11⟩) =
      some ⟨Node.quad (⟨0, 0⟩, ⟨3, 3⟩)
        [Node.leaf (⟨0, 0⟩, ⟨1, 1⟩) false, Node.leaf (⟨2, 0⟩, ⟨3, 1⟩) false,
         Node.leaf (⟨0, 2⟩, ⟨1, 3⟩) false, Node.leaf (⟨2, 2⟩, ⟨3, 3⟩) false]⟩ ∧
    ¬ Consolidated (Node.quad ((⟨0, 0⟩ : Coordinate), (⟨3, 3⟩ : Coordinate))
        [Node.leaf (⟨0, 0⟩, ⟨1, 1⟩) false, Node.leaf (⟨2, 0⟩, ⟨3, 1⟩) false,
         Node.leaf (⟨0, 2⟩, ⟨1, 3⟩) false, Node.leaf (⟨2, 2⟩, ⟨3, 3⟩) false]) := by
  refine ⟨rfl, fun h => ?_⟩
  cases h with
  | quad _ _ _ hnu =>
    exact hnu ⟨by simp, false, by intro n hn; fin_cases hn <;> exact ⟨rfl, rfl⟩⟩

/-- Claim C3 (amended): a completing `insert` preserves the maximally-
consolidated invariant, and so does a completing `insert_rect` whose target
rectangle meets the governed bounds; an `insert_rect` whose target is fully
disjoint from the bounds can leave a uniform branch (see the
counterexample). -/
theorem mutating_ops_preserve_consolidation {T : Type} [DecidableEq T] (fuel : Nat) :
    (∀ (q q' : Quadtree T) (value : T) (point : Coordinate),
       Consolidated q.inner → q.insert fuel value point = some q' →
       Consolidated q'.inner) ∧
    (∀ (q q' : Quadtree T) (value : T) (R : Rect),
       WF q.inner → Consolidated q.inner →
       (∃ p, inRect q.inner.get_bounds p ∧ inRect R p) →
       q.insert_rect fuel value R = some q' → Consolidated q'.inner) := by
  constructor
  · intro q q' value point hmc h
    simp only [Quadtree.insert] at h
    cases hv : insert_value fuel q.inner value point with
    | none => rw [hv] at h; cases h
    | some m =>
      rw [hv] at h
      rw [← Option.some_inj.mp h]
      exact insert_value_mc fuel hmc hv
  · intro q q' value R hwf hmc hex h
    simp only [Quadtree.insert_rect] at h
    cases hv : insert_value_range fuel q.inner value R with
    | none => rw [hv] at h; cases h
    | some m =>
      rw [hv] at h
      rw [← Option.some_inj.mp h]
      exact insert_value_range_mc fuel hwf hmc hex hv

theorem mutating_ops_preserve_consolidation_witness :
    Consolidated (Node.quad ((⟨0, 0⟩ : Coordinate), (⟨1, 1⟩ : Coordinate))
      [Node.leaf (⟨0, 0⟩, ⟨0, 0⟩) true, Node.leaf (⟨1, 0⟩, ⟨1, 0⟩) false,
       Node.leaf (⟨0, 1⟩, ⟨0, 1⟩) false, Node.leaf (⟨1, 1⟩, ⟨1, 1⟩) false]) :=
  (mutating_ops_preserve_consolidation 5).1 (Quadtree.new false ⟨0, 0⟩ ⟨1, 1⟩)
    ⟨Node.quad (⟨0, 0⟩, ⟨1, 1⟩)
      [Node.leaf (⟨0, 0⟩, ⟨0, 0⟩) true, Node.leaf (⟨1, 0⟩, ⟨1, 0⟩) false,
       Node.leaf (⟨0, 1⟩, ⟨0, 1⟩) false, Node.leaf (⟨1, 1⟩, ⟨1, 1⟩) false]⟩
    true ⟨0, 0⟩ (Consolidated.leaf _ _) (by rfl)

/-- Claim C4, counterexample to the statement as written: after a range
insertion of `true` whose target misses the bounds, the four children end up
as leaves all holding the common value `false` (≠ inserted value), yet the
branch is not consolidated — the check at lines 251-254 compares each child
to the inserted `value`, not to its siblings. -/
theorem range_consolidation_not_mutual :
    insert_value_range 3 (Node.leaf ((⟨0, 0⟩ : Coordinate), (⟨1, 1⟩ : Coordinate)) false)
      true (⟨5, 5⟩, ⟨6, 6⟩) =
      some (Node.quad (⟨0, 0⟩, ⟨1, 1⟩)
        [Node.leaf (⟨0, 0⟩, ⟨0, 0⟩) false, Node.leaf (⟨1, 0⟩, ⟨1, 0⟩) false,
         Node.leaf (⟨0, 1⟩, ⟨0, 1⟩) false, Node.leaf (⟨1, 1⟩, ⟨1, 1⟩) false]) ∧
    uniformLeaves
      [Node.leaf ((⟨0, 0⟩ : Coordinate), (⟨0, 0⟩ : Coordinate)) false,
       Node.leaf (⟨1, 0⟩, ⟨1, 0⟩) false,
       Node.leaf (⟨0, 1⟩, ⟨0, 1⟩) false, Node.leaf (⟨1, 1⟩, ⟨1, 1⟩) false] ∧
    (Node.quad ((⟨0, 0⟩ : Coordinate), (⟨1, 1⟩ : Coordinate))
        [Node.leaf (⟨0, 0⟩, ⟨0, 0⟩) false, Node.leaf (⟨1, 0⟩, ⟨1, 0⟩) false,
         Node.leaf (⟨0, 1⟩, ⟨0, 1⟩) false,
         Node.leaf (⟨1, 1⟩, ⟨1, 1⟩) false]).is_leaf = false :=
  ⟨rfl, ⟨by simp, false, by intro n hn; fin_cases hn <;> exact ⟨rfl, rfl⟩⟩, rfl⟩

/-- Claim C4 (amended): the post-recursion check of `insert_value_range` tests
each child against the newly inserted value — exactly like point insertion,
not mutual equality.  Consequently a branch whose children are all leaves
holding the inserted value never survives: whenever the call returns a branch,
its children fail the inserted-value check. -/
theorem range_consolidation_checks_inserted_value {T : Type} [DecidableEq T]
    (fuel : Nat) (n : Node T) (value : T) (R b : Rect) (cs : List (Node T))
    (h : insert_value_range fuel n value R = some (.quad b cs)) :
    cs.all (leafValueIs value) = false := by
  cases fuel with
  | zero => cases h
  | succ fuel =>
    simp only [insert_value_range] at h
    by_cases hR : n.get_bounds = R
    · rw [if_pos hR] at h
      exact Node.noConfusion (Option.some_inj.mp h)
    · rw [if_neg hR] at h
      split at h
      · cases h
      · cases h
      · rename_i bq nodesq heq
        split at h
        · cases h
        · rename_i nodes1 hrc
          split at h
          · simp only [Node.consolidate] at h
            split at h
            · exact Node.noConfusion (Option.some_inj.mp h)
            · cases h
          · rename_i hcond
            injection Option.some_inj.mp h with hb1 hn1
            rw [← hn1]
            exact Bool.eq_false_iff.mpr hcond

theorem range_consolidation_checks_inserted_value_witness :
    List.all
      [Node.leaf ((⟨0, 0⟩ : Coordinate), (⟨0, 0⟩ : Coordinate)) false,
       Node.leaf (⟨1, 0⟩, ⟨1, 0⟩) false,
       Node.leaf (⟨0, 1⟩, ⟨0, 1⟩) false, Node.leaf (⟨1, 1⟩, ⟨1, 1⟩) false]
      (leafValueIs true) = false :=
  range_consolidation_checks_inserted_value 3
    (Node.leaf (⟨0, 0⟩, ⟨1, 1⟩) false) true (⟨5, 5⟩, ⟨6, 6⟩) (⟨0, 0⟩, ⟨1, 1⟩)
    [Node.leaf (⟨0, 0⟩, ⟨0, 0⟩) false, Node.leaf (⟨1, 0⟩, ⟨1, 0⟩) false,
     Node.leaf (⟨0, 1⟩, ⟨0, 1⟩) false, Node.leaf (⟨1, 1⟩, ⟨1, 1⟩) false] (by rfl)

/-- Claim C5: iteration yields exactly one element per coordinate of the
governed rectangle in row-major order, each element being the value `get`
returns there (stated as: mapping `some` over the collected stream equals
mapping `get` over the row-major coordinate list, so the lengths agree and
the elements are the looked-up values in order); and the spec's concrete
scenario on `Quadtree::new((1,1),(4,4))` yields rows `false ×8, true ×7,
false`. -/
theorem iter_row_major :
    (∀ (T : Type) (q : Quadtree T), WF q.inner → properRect q.inner.get_bounds →
      q.iterList.length = (specRowMajorCoords q.inner.get_bounds).length ∧
      q.iterList.map some = (specRowMajorCoords q.inner.get_bounds).map q.get) ∧
    (Quadtree.insert_rect 9 (Quadtree.new false ⟨1, 1⟩ ⟨4, 4⟩) true
        (⟨1, 3⟩, ⟨4, 4⟩) = some exQ1 ∧
     Quadtree.insert 9 exQ1 false ⟨4, 4⟩ = some exQ2 ∧
     exQ2.iterList = [false, false, false, false, false, false, false, false,
                      true, true, true, true, true, true, true, false]) := by
  refine ⟨fun T q hwf hp => ⟨?_, iterList_spec hwf hp⟩, rfl, rfl, rfl⟩
  have h := congrArg List.length (iterList_spec hwf hp)
  rwa [List.length_map, List.length_map] at h

theorem iter_row_major_witness :
    (Quadtree.mk (Node.leaf ((⟨0, 0⟩ : Coordinate), (⟨1, 1⟩ : Coordinate))
        false)).iterList.length =
      (specRowMajorCoords ((⟨0, 0⟩ : Coordinate), (⟨1, 1⟩ : Coordinate))).length :=
  (iter_row_major.1 Bool ⟨Node.leaf (⟨0, 0⟩, ⟨1, 1⟩) false⟩
    (WF.leaf _ _ (by decide)) (by decide)).1

/-- Claim C6, counterexample to the statement as written: with the single-cell
governed rectangle `[(0,0),(0,0)]` and a target rectangle fully outside of it
(`rect_intersection` with the bounds is `none`), the call is not error-free:
`insert_value_range` splits the degenerate root and the `assert!` aborts the
process (`none`). -/
theorem insert_rect_outside_panics :
    rect_intersection ((⟨0, 0⟩ : Coordinate), (⟨0, 0⟩ : Coordinate))
      (⟨5, 5⟩, ⟨6, 6⟩) = none ∧
    Quadtree.insert_rect 3 (Quadtree.new false ⟨0, 0⟩ ⟨0, 0⟩) true
      (⟨5, 5⟩, ⟨6, 6⟩) = none :=
  ⟨rfl, rfl⟩

/-- Claim C6 (amended): for a well-formed tree and an arbitrary target
rectangle — in particular one partly or fully outside the governed bounds —
when `insert_rect` completes normally the out-of-bounds portions are silently
ignored: every in-bounds point of the overlap reads the inserted value and
every in-bounds point outside the target is unchanged.  (The call may instead
abort on a degenerate split, see the counterexample.) -/
theorem insert_rect_clips {T : Type} [DecidableEq T] (fuel : Nat)
    (q q' : Quadtree T) (value : T) (R : Rect)
    (hwf : WF q.inner) (h : q.insert_rect fuel value R = some q') :
    (∀ p, inRect q.inner.get_bounds p → inRect R p → q'.get p = some value) ∧
    (∀ p, inRect q.inner.get_bounds p → ¬ inRect R p → q'.get p = q.get p) := by
  simp only [Quadtree.insert_rect] at h
  cases hv : insert_value_range fuel q.inner value R with
  | none => rw [hv] at h; cases h
  | some m =>
    rw [hv] at h
    obtain ⟨hb, hin, hout⟩ := insert_value_range_spec fuel hwf hv
    rw [← Option.some_inj.mp h]
    exact ⟨fun p hpb hp => hin p hpb hp, fun p hpb hnp => hout p hpb hnp⟩

theorem insert_rect_clips_witness :
    (Quadtree.mk (Node.quad ((⟨0, 0⟩ : Coordinate), (⟨1, 1⟩ : Coordinate))
      [Node.leaf (⟨0, 0⟩, ⟨0, 0⟩) false, Node.leaf (⟨1, 0⟩, ⟨1, 0⟩) false,
       Node.leaf (⟨0, 1⟩, ⟨0, 1⟩) false,
       Node.leaf (⟨1, 1⟩, ⟨1, 1⟩) true])).get ⟨1, 1⟩ = some true :=
  (insert_rect_clips 5 (Quadtree.new false ⟨0, 0⟩ ⟨1, 1⟩)
    ⟨Node.quad (⟨0, 0⟩, ⟨1, 1⟩)
      [Node.leaf (⟨0, 0⟩, ⟨0, 0⟩) false, Node.leaf (⟨1, 0⟩, ⟨1, 0⟩) false,
       Node.leaf (⟨0, 1⟩, ⟨0, 1⟩) false, Node.leaf (⟨1, 1⟩, ⟨1, 1⟩) true]⟩
    true ((⟨1, 1⟩ : Coordinate), (⟨9, 9⟩ : Coordinate))
    (WF.leaf _ _ (by decide)) (by rfl)).1 ⟨1, 1⟩ (by decide) (by decide)

/-- Claim C7: splitting a leaf whose bounds have width span 0 or height span 0
fails with the degenerate-split error (`assert!`, modelled as `none`) and
never proceeds to subdivide, while `split` succeeds on every node whose
bounds have positive span on both axes. -/
theorem split_degenerate_fails :
    (∀ (T : Type) (b : Rect) (v : T),
      b.2.x - b.1.x = 0 ∨ b.2.y - b.1.y = 0 → Node.split (.leaf b v) = none) ∧
    (∀ (T : Type) (n : Node T),
      0 < n.get_bounds.2.x - n.get_bounds.1.x →
      0 < n.get_bounds.2.y - n.get_bounds.1.y → (n.split).isSome = true) := by
  constructor
  · intro T b v hdeg
    simp only [Node.split]
    rw [if_neg]
    intro hc
    omega
  · intro T n hx hy
    cases n with
    | quad b ns => rfl
    | leaf b v =>
      simp only [Node.split]
      rw [if_pos ⟨hx, hy⟩]
      rfl

theorem split_degenerate_fails_witness :
    Node.split (Node.leaf ((⟨0, 0⟩ : Coordinate), (⟨0, 3⟩ : Coordinate)) true) = none ∧
    (Node.split (Node.leaf ((⟨0, 0⟩ : Coordinate), (⟨2, 2⟩ : Coordinate))
      true)).isSome = true :=
  ⟨split_degenerate_fails.1 Bool (⟨0, 0⟩, ⟨0, 3⟩) true (Or.inl (by decide)),
   split_degenerate_fails.2 Bool (Node.leaf (⟨0, 0⟩, ⟨2, 2⟩) true)
     (by decide) (by decide)⟩

/-- Claim C8, counterexample to the statement as written: the midlines use
Rust's truncating division, not floor division — for bounds `[(-1,-1),(0,0)]`
the x midline is `(0 + -1) tdiv 2 = 0` while floor division gives `-1` — and
with that midline `split` produces a single child equal to the whole
rectangle instead of four quadrants. -/
theorem split_negative_coords_not_four_quadrants :
    Node.split (Node.leaf ((⟨-1, -1⟩ : Coordinate), (⟨0, 0⟩ : Coordinate)) (0 : Int)) =
      some (Node.quad (⟨-1, -1⟩, ⟨0, 0⟩) [Node.leaf (⟨-1, -1⟩, ⟨0, 0⟩) 0]) ∧
    Int.tdiv ((0 : Int) + -1) 2 = 0 ∧ ((0 : Int) + -1) / 2 = -1 :=
  ⟨rfl, by decide, by decide⟩

/-- Claim C8 (amended): the midlines are computed with truncating division
`(min+max)/2`; whenever each computed midline lies strictly below the axis
maximum (always the case for nonnegative coordinates, but not for the
negative odd-sum case of the counterexample) `split_rect` emits exactly the
four quadrants top-left, top-right, bottom-left, bottom-right, which cover
the bounds, stay inside them, and are pairwise disjoint; splitting
`[(1,1),(4,4)]` and `[(1,1),(5,5)]` yields the quadrants the spec lists. -/
theorem split_quadrants_trunc :
    (∀ (b : Rect) (h_mid v_mid : Int),
      b.1.x ≤ h_mid → h_mid < b.2.x → b.1.y ≤ v_mid → v_mid < b.2.y →
      split_rect b h_mid v_mid =
        [(⟨b.1.x, b.1.y⟩, ⟨h_mid, v_mid⟩), (⟨h_mid + 1, b.1.y⟩, ⟨b.2.x, v_mid⟩),
         (⟨b.1.x, v_mid + 1⟩, ⟨h_mid, b.2.y⟩),
         (⟨h_mid + 1, v_mid + 1⟩, ⟨b.2.x, b.2.y⟩)] ∧
      (∀ p, inRect b p → ∃ r ∈ split_rect b h_mid v_mid, inRect r p) ∧
      (∀ r ∈ split_rect b h_mid v_mid, ∀ p, inRect r p → inRect b p) ∧
      List.Pairwise (fun r s => ∀ p, ¬(inRect r p ∧ inRect s p))
        (split_rect b h_mid v_mid)) ∧
    (Node.split (Node.leaf ((⟨1, 1⟩ : Coordinate), (⟨4, 4⟩ : Coordinate)) (0 : Int)) =
      some (Node.quad (⟨1, 1⟩, ⟨4, 4⟩)
        [Node.leaf (⟨1, 1⟩, ⟨2, 2⟩) 0, Node.leaf (⟨3, 1⟩, ⟨4, 2⟩) 0,
         Node.leaf (⟨1, 3⟩, ⟨2, 4⟩) 0, Node.leaf (⟨3, 3⟩, ⟨4, 4⟩) 0])) ∧
    (Node.split (Node.leaf ((⟨1, 1⟩ : Coordinate), (⟨5, 5⟩ : Coordinate)) (0 : Int)) =
      some (Node.quad (⟨1, 1⟩, ⟨5, 5⟩)
        [Node.leaf (⟨1, 1⟩, ⟨3, 3⟩) 0, Node.leaf (⟨4, 1⟩, ⟨5, 3⟩) 0,
         Node.leaf (⟨1, 4⟩, ⟨3, 5⟩) 0, Node.leaf (⟨4, 4⟩, ⟨5, 5⟩) 0])) := by
  refine ⟨?_, rfl, rfl⟩
  intro b h_mid v_mid hx1 hx2 hy1 hy2
  have heq : split_rect b h_mid v_mid =
      [(⟨b.1.x, b.1.y⟩, ⟨h_mid, v_mid⟩), (⟨h_mid + 1, b.1.y⟩, ⟨b.2.x, v_mid⟩),
       (⟨b.1.x, v_mid + 1⟩, ⟨h_mid, b.2.y⟩),
       (⟨h_mid + 1, v_mid + 1⟩, ⟨b.2.x, b.2.y⟩)] := by
    unfold split_rect
    rw [if_pos ⟨by omega, by omega⟩, if_pos ⟨by omega, by omega⟩,
      if_pos ⟨by omega, by omega⟩, if_pos ⟨by omega, by omega⟩]
    rfl
  refine ⟨heq, fun p hp => split_rect_cover hp,
    fun r hr p hp =>
      (split_rect_subset hx1 (le_of_lt hx2) hy1 (le_of_lt hy2) r hr).1 p hp, ?_⟩
  rw [heq]
  refine List.Pairwise.cons ?_ (List.Pairwise.cons ?_
    (List.Pairwise.cons ?_ (List.pairwise_singleton _ _))) <;>
    intro s hs p hps <;> fin_cases hs <;>
    (obtain ⟨hp1, hp2⟩ := hps
     rw [inRect_def] at hp1 hp2
     omega)

theorem split_quadrants_trunc_witness :
    split_rect ((⟨1, 1⟩ : Coordinate), (⟨4, 4⟩ : Coordinate)) 2 2 =
      [((⟨1, 1⟩ : Coordinate), (⟨2, 2⟩ : Coordinate)), (⟨3, 1⟩, ⟨4, 2⟩),
       (⟨1, 3⟩, ⟨2, 4⟩), (⟨3, 3⟩, ⟨4, 4⟩)] :=
  (split_quadrants_trunc.1 ((⟨1, 1⟩ : Coordinate), (⟨4, 4⟩ : Coordinate)) 2 2
    (by decide) (by decide) (by decide) (by decide)).1

/-- Claim C9: `read_value` on a leaf returns the leaf's value for any queried
point, inside its bounds or not; `get` on a freshly constructed tree (whose
root is a leaf) therefore returns the default even outside the governed
rectangle; and for a well-formed tree `get` returns `none` only when the root
is a branch and the point lies outside the governed rectangle. -/
theorem read_value_leaf_unchecked :
    (∀ (T : Type) (b : Rect) (v : T) (p : Coordinate),
      Node.read_value (.leaf b v) p = some v) ∧
    (∀ (T : Type) (d : T) (ul lr p : Coordinate),
      (Quadtree.new d ul lr).get p = some d) ∧
    (∀ (T : Type) (q : Quadtree T) (p : Coordinate), WF q.inner →
      q.get p = none → q.inner.is_quad = true ∧ ¬ inRect q.inner.get_bounds p) := by
  refine ⟨fun T b v p => rfl, fun T d ul lr p => rfl, ?_⟩
  intro T q p hwf hnone
  cases hq : q.inner with
  | leaf b v =>
    exfalso
    have h2 : q.get p = some v := by
      show q.inner.read_value p = some v
      rw [hq, read_value_leaf]
    rw [hnone] at h2
    cases h2
  | quad b ns =>
    refine ⟨rfl, ?_⟩
    intro hin
    rw [hq] at hwf
    obtain ⟨v, hv⟩ := read_value_isSome_of_wf hwf p hin
    have h2 : q.get p = some v := by
      show q.inner.read_value p = some v
      rw [hq]; exact hv
    rw [hnone] at h2
    cases h2

theorem read_value_leaf_unchecked_witness :
    (Node.quad ((⟨0, 0⟩ : Coordinate), (⟨1, 1⟩ : Coordinate))
      [Node.leaf (⟨0, 0⟩, ⟨1, 1⟩) false]).is_quad = true ∧
    ¬ inRect ((⟨0, 0⟩ : Coordinate), (⟨1, 1⟩ : Coordinate)) ⟨5, 5⟩ :=
  read_value_leaf_unchecked.2.2 Bool
    ⟨Node.quad (⟨0, 0⟩, ⟨1, 1⟩) [Node.leaf (⟨0, 0⟩, ⟨1, 1⟩) false]⟩ ⟨5, 5⟩
    (WF.quad _ _ (by decide)
      (by intro n hn; fin_cases hn; exact WF.leaf _ _ (by decide))
      (by intro n hn p hp; fin_cases hn; exact hp)
      (fun p hp => ⟨Node.leaf (⟨0, 0⟩, ⟨1, 1⟩) false, by simp, hp⟩)) rfl

/-- Claim C10: `split` and `consolidate` leave a node's bounds unchanged, and
the root bounds of a tree built by `new(min, max)` still equal `[min, max]`
after any sequence of `insert` / `insert_rect` calls that return normally. -/
theorem bounds_preserved {T : Type} [DecidableEq T] :
    (∀ (n n' : Node T), n.split = some n' → n'.get_bounds = n.get_bounds) ∧
    (∀ (n n' : Node T), n.consolidate = some n' → n'.get_bounds = n.get_bounds) ∧
    (∀ (fuel : Nat) (d : T) (ul lr : Coordinate) (ops : List (QuadOp T))
       (q' : Quadtree T),
      applyOps fuel (Quadtree.new d ul lr) ops = some q' →
      q'.inner.get_bounds = (ul, lr)) :=
  ⟨fun _ _ h => split_bounds h, fun _ _ h => consolidate_bounds h,
   fun _ _ _ _ _ _ h => applyOps_bounds h⟩

theorem bounds_preserved_witness :
    (Quadtree.mk (Node.leaf ((⟨0, 0⟩ : Coordinate), (⟨1, 1⟩ : Coordinate))
      false)).inner.get_bounds = ((⟨0, 0⟩ : Coordinate), (⟨1, 1⟩ : Coordinate)) :=
  bounds_preserved.2.2 5 false ⟨0, 0⟩ ⟨1, 1⟩
    [QuadOp.point true ⟨0, 0⟩, QuadOp.range false (⟨0, 0⟩, ⟨1, 1⟩)]
    ⟨Node.leaf (⟨0, 0⟩, ⟨1, 1⟩) false⟩ (by rfl)
